import Mathlib

/-!
# ScaleHLS: dataflow node scheduling and array partitioning

A shallow embedding of
* `lib/Transforms/Dataflow/ScheduleDataflowNode.cpp` (`ALAPScheduleNode::matchAndRewrite`,
  `ScheduleDataflowNode::runOnOperation`), and
* `lib/Transforms/ArrayPartition.cpp` (`applyArrayPartition`),
together with theorems about them.

Nodes, buffers and schedule regions are identified by natural numbers.  The `level`
attribute of a node is a 32-bit integer attribute; the local `unsigned level` and the
expression `consumer.getLevel().value() + 1` are 32-bit unsigned, so the addition is
taken modulo `2 ^ 32`.
-/

namespace ScaleHLS

/-! ## Dataflow scheduling: data model -/

/-- The `level` attribute of every node: `none` while the attribute is absent. -/
abbrev Levels := Nat → Option Nat

/-- The dataflow graph of one function, as seen by the pass.  The two helper queries
`getDependentConsumers` and `getProducers` are not part of the two translated files and
are therefore fields of the graph. -/
structure Dataflow where
  /-- All `NodeOp`s of the function, in the order the driver visits them. -/
  nodes : List Nat
  /-- The list `node.getOutputs()`. -/
  outputs : Nat → List Nat
  /-- The list `getDependentConsumers(output, node)`. -/
  dependentConsumers : Nat → Nat → List Nat
  /-- The list `getProducers(output)`. -/
  producers : Nat → List Nat
  /-- All `ScheduleOp`s of the function, in walk order. -/
  schedules : List Nat
  /-- The list `schedule.getOps<NodeOp>()`. -/
  scheduleOps : Nat → List Nat

/-- The mutable attributes the pass reads and writes. -/
structure FuncState where
  /-- The `level` attribute of each node. -/
  level : Levels
  /-- The unit attribute `isLegal` of each schedule region. -/
  isLegal : Nat → Bool

/-- Width of `unsigned`: arithmetic on levels is modulo this number. -/
def uintModulus : Nat := 2 ^ 32

/-! ## `ALAPScheduleNode::matchAndRewrite` -/

/-- The inner loop `for (auto consumer : getDependentConsumers(output, node))`:
fails at the first consumer without a level, otherwise folds
`level = std::max(level, consumer.getLevel().value() + 1)`. -/
def consumerLoop (st : Levels) : List Nat → Nat → Option Nat
  | [], level => some level
  | consumer :: rest, level =>
    match st consumer with
    | none => none
    | some cl => consumerLoop st rest (max level ((cl + 1) % uintModulus))

/-- The violation test of one output buffer:
`getDependentConsumers(output, node).size() > 1 || getProducers(output).size() > 1`. -/
def hasViolation (g : Dataflow) (node output : Nat) : Bool :=
  decide (1 < (g.dependentConsumers output node).length) ||
    decide (1 < (g.producers output).length)

/-- The outer loop `for (auto output : node.getOutputs())`. -/
def outputLoop (ignoreViolations : Bool) (g : Dataflow) (st : Levels) (node : Nat) :
    List Nat → Nat → Option Nat
  | [], level => some level
  | output :: rest, level =>
    if !ignoreViolations && hasViolation g node output then none
    else
      match consumerLoop st (g.dependentConsumers output node) level with
      | none => none
      | some level1 => outputLoop ignoreViolations g st node rest level1

/-- The rewrite pattern: `none` is `failure()`, `some st1` is `success()` with the
attribute store after `node.setLevelAttr(level)`. -/
def matchAndRewrite (ignoreViolations : Bool) (g : Dataflow) (st : Levels) (node : Nat) :
    Option Levels :=
  if (st node).isSome then none
  else
    match outputLoop ignoreViolations g st node (g.outputs node) 0 with
    | none => none
    | some level => some (Function.update st node (some level))

/-! ## The fixpoint driver and `ScheduleDataflowNode::runOnOperation` -/

/-- Modelled from the spec: the rewrite driver `applyPatternsAndFoldGreedily` belongs to the
compiler framework, not to this repository.  One round is a full scan of the nodes that
applies the pattern to each of them, every successful rewrite being visible to the
nodes scanned after it; the flag tells whether some rewrite succeeded. -/
def scanNodes (ignoreViolations : Bool) (g : Dataflow) : List Nat → Levels → Levels × Bool
  | [], st => (st, false)
  | n :: rest, st =>
    match matchAndRewrite ignoreViolations g st n with
    | some st1 => ((scanNodes ignoreViolations g rest st1).1, true)
    | none => scanNodes ignoreViolations g rest st

/-- Modelled from the spec: the driver repeats full scans until a scan makes no new
assignment; `maxIterations` bounds the number of scans. -/
def applyPatternsGreedily (ignoreViolations : Bool) (g : Dataflow) : Nat → Levels → Levels
  | 0, st => st
  | k + 1, st =>
    if (scanNodes ignoreViolations g g.nodes st).2 then
      applyPatternsGreedily ignoreViolations g k (scanNodes ignoreViolations g g.nodes st).1
    else (scanNodes ignoreViolations g g.nodes st).1

/-- The predicate of `llvm::all_of(schedule.getOps<NodeOp>(), ...)`. -/
def allLeveled (g : Dataflow) (st : Levels) (schedule : Nat) : Bool :=
  (g.scheduleOps schedule).all (fun node => (st node).isSome)

/-- The walk `func.walk([&](ScheduleOp schedule) {...})`: the unit attribute is set on a
region whose nodes all have a level, and is otherwise left as it was. -/
def markLegal (g : Dataflow) (st : Levels) : List Nat → (Nat → Bool) → (Nat → Bool)
  | [], legal => legal
  | schedule :: rest, legal =>
    if allLeveled g st schedule then markLegal g st rest (Function.update legal schedule true)
    else markLegal g st rest legal

/-- The pass body. -/
def runOnOperation (ignoreViolations : Bool) (g : Dataflow) (maxIterations : Nat)
    (s : FuncState) : FuncState :=
  let st := applyPatternsGreedily ignoreViolations g maxIterations s.level
  if !ignoreViolations then { level := st, isLegal := markLegal g st g.schedules s.isLegal }
  else { level := st, isLegal := s.isLegal }

/-! ## Graph predicates used in the statements -/

/-- A producer-to-consumer edge of the graph. -/
def edge (g : Dataflow) (n c : Nat) : Prop :=
  n ∈ g.nodes ∧ ∃ b ∈ g.outputs n, c ∈ g.dependentConsumers b n

/-- No node reaches itself along producer-to-consumer edges. -/
def Acyclic (g : Dataflow) : Prop := ∀ n, ¬ Relation.TransGen (edge g) n n

/-- Every consumer of a node of the function is a node of the function. -/
def Closed (g : Dataflow) : Prop :=
  ∀ n ∈ g.nodes, ∀ b ∈ g.outputs n, ∀ c ∈ g.dependentConsumers b n, c ∈ g.nodes

/-- Every output buffer has exactly one producer and exactly one consumer. -/
def WellFormed (g : Dataflow) : Prop :=
  ∀ n ∈ g.nodes, ∀ b ∈ g.outputs n,
    (g.dependentConsumers b n).length = 1 ∧ (g.producers b).length = 1

/-- The chain `A -> buf1 -> B -> buf2 -> C` with `A = 0`, `B = 1`, `C = 2`, in one
schedule region `0`. -/
def chain : Dataflow where
  nodes := [0, 1, 2]
  outputs := fun n => if n = 0 then [1] else if n = 1 then [2] else []
  dependentConsumers := fun b _ => if b = 1 then [1] else if b = 2 then [2] else []
  producers := fun b => if b = 1 then [0] else if b = 2 then [1] else []
  schedules := [0]
  scheduleOps := fun _ => [0, 1, 2]

/-- The graph in which `buf1` of `A = 0` feeds both `B = 1` and `D = 3`. -/
def fanout : Dataflow where
  nodes := [0, 1, 3]
  outputs := fun n => if n = 0 then [1] else []
  dependentConsumers := fun b _ => if b = 1 then [1, 3] else []
  producers := fun b => if b = 1 then [0] else []
  schedules := [0]
  scheduleOps := fun _ => [0, 1, 3]

/-- The state in which no node has a level and no region is legal. -/
def emptyState : FuncState := { level := fun _ => none, isLegal := fun _ => false }

/-- All consumers of all output buffers of a node, in loop order. -/
def allConsumers (g : Dataflow) (n : Nat) : List Nat :=
  (g.outputs n).flatMap (fun b => g.dependentConsumers b n)

/-- The level the specification prescribes: the maximum over all output buffers and all
consumers of that buffer of `consumerLevel + 1`, and `0` when there is no consumer.
This definition follows the specification, not the code. -/
def specLevel (g : Dataflow) (st : Levels) (n : Nat) : Nat :=
  ((allConsumers g n).map (fun c => (st c).getD 0 + 1)).foldl max 0

/-- A state in which node `B = 1` carries the largest 32-bit level. -/
def saturated : Levels := fun n => if n = 1 then some 4294967295 else none

/-- A state of the chain in which `C` and `B` are scheduled and `A` is not. -/
def partly : Levels := fun n => if n = 1 then some 1 else if n = 2 then some 0 else none

/-- One round of the driver, as a function on attribute stores. -/
def round (ignoreViolations : Bool) (g : Dataflow) (st : Levels) : Levels :=
  (scanNodes ignoreViolations g g.nodes st).1

/-- The state of the fan-out graph in which no node has a level and the region already
carries the legal attribute. -/
def presetLegal : FuncState := { level := fun _ => none, isLegal := fun _ => true }

/-- Number of nodes of the function that have no level yet. -/
def unleveled (g : Dataflow) (st : Levels) : Nat :=
  g.nodes.countP (fun n => (st n).isNone)

/-! ## Array partitioning: data model -/

/-- Affine expressions, with the expression kinds of the compiler framework. -/
inductive AffineExpr where
  | const (c : Int)
  | dim (d : Nat)
  | symbol (s : Nat)
  | add (a b : AffineExpr)
  | mul (a b : AffineExpr)
  | mod (a b : AffineExpr)
  | floorDiv (a b : AffineExpr)
  | ceilDiv (a b : AffineExpr)
  deriving DecidableEq

/-- An affine map: `AffineMap::get(dimCount, symbolCount, results, context)`. -/
structure AffineMap where
  numDims : Nat
  numSymbols : Nat
  results : List AffineExpr
  deriving DecidableEq

/-- A memref type: `MemRefType::get(shape, elementType, layoutMap, memorySpace)`.
Element types and memory spaces are identified by natural numbers. -/
structure MemRefType where
  shape : List Int
  elementType : Nat
  layout : AffineMap
  memorySpace : Nat
  deriving DecidableEq

/-- An access operation (`AffineLoadOp` or `AffineStoreOp`), reduced to the results of
its affine map: one index expression per dimension. -/
abbrev AccessOp := List AffineExpr

/-- The type of the folding primitive: `foldDiff a b` is the constant that
`(a - b).dyn_cast<AffineConstantExpr>()` holds, or `none` when the difference is not a
constant expression.  The expression algebra belongs to the compiler framework, so
the primitive is a parameter of everything below. -/
abbrev FoldDiff := AffineExpr → AffineExpr → Option Int

/-- Modelled from the spec: a folding primitive (the expression algebra is not part of
the translated files) for index expressions of the shapes `c`, `d` and `d + c`: each is
read as a base (a dimension, or none) and a constant offset. -/
def offsetForm : AffineExpr → Option (Option Nat × Int)
  | AffineExpr.const c => some (none, c)
  | AffineExpr.dim d => some (some d, 0)
  | AffineExpr.add (AffineExpr.dim d) (AffineExpr.const c) => some (some d, c)
  | _ => none

/-- Modelled from the spec: the difference of two expressions with the same base folds
to the difference of their offsets; nothing else folds. -/
def offsetFold : FoldDiff := fun a b =>
  match offsetForm a, offsetForm b with
  | some (ba, ca), some (bb, cb) => if ba = bb then some (ca - cb) else none
  | _, _ => none

/-- Modelled from the spec: the value of a layout expression at given dimension and
symbol values (the expression algebra is not part of the translated files).  `mod` is
the remainder and `floorDiv` the floor division of the specification
(`index mod factor`, `index div factor`); they and `ceilDiv` have a value only for a
positive divisor, where integer `/` rounds towards minus infinity and `%` is the
non-negative remainder.  For any other divisor the expression has no value (`none`). -/
def AffineExpr.eval (dims syms : Nat → Int) : AffineExpr → Option Int
  | AffineExpr.const c => some c
  | AffineExpr.dim d => some (dims d)
  | AffineExpr.symbol s => some (syms s)
  | AffineExpr.add a b =>
    match a.eval dims syms, b.eval dims syms with
    | some x, some y => some (x + y)
    | _, _ => none
  | AffineExpr.mul a b =>
    match a.eval dims syms, b.eval dims syms with
    | some x, some y => some (x * y)
    | _, _ => none
  | AffineExpr.mod a b =>
    match a.eval dims syms, b.eval dims syms with
    | some x, some y => if 0 < y then some (x % y) else none
    | _, _ => none
  | AffineExpr.floorDiv a b =>
    match a.eval dims syms, b.eval dims syms with
    | some x, some y => if 0 < y then some (x / y) else none
    | _, _ => none
  | AffineExpr.ceilDiv a b =>
    match a.eval dims syms, b.eval dims syms with
    | some x, some y => if 0 < y then some (-((-x) / y)) else none
    | _, _ => none

/-! ## `applyArrayPartition` -/

/-- The loop `for (auto accessOp : loadStores)` that collects the unique indices of one
dimension; `none` when an access has no result for the dimension (an assertion failure
of `getResult`). -/
def collectIndices (dim : Nat) : List AccessOp → List AffineExpr → Option (List AffineExpr)
  | [], indices => some indices
  | accessOp :: rest, indices =>
    match accessOp.get? dim with
    | none => none
    | some index =>
      if index ∈ indices then collectIndices dim rest indices
      else collectIndices dim rest (indices ++ [index])

/-- The inner loop `for (unsigned j = i + 1; j < accessNum; ++j)` for a fixed
`indices[i]`: `unsigned distance = abs(constDistance.getValue())` keeps the low 32 bits
of the absolute value. -/
def innerLoop (foldDiff : FoldDiff) (xi : AffineExpr) : List AffineExpr → Nat → Nat
  | [], maxDistance => maxDistance
  | xj :: rest, maxDistance =>
    match foldDiff xj xi with
    | some c => innerLoop foldDiff xi rest (max maxDistance (c.natAbs % uintModulus))
    | none => innerLoop foldDiff xi rest maxDistance

/-- The outer loop `for (unsigned i = 0; i < accessNum; ++i)`. -/
def outerLoop (foldDiff : FoldDiff) : List AffineExpr → Nat → Nat
  | [], maxDistance => maxDistance
  | xi :: rest, maxDistance => outerLoop foldDiff rest (innerLoop foldDiff xi rest maxDistance)

/-- The value of `maxDistance` after `maxDistance += 1` (32-bit unsigned). -/
def maxDistance (foldDiff : FoldDiff) (indices : List AffineExpr) : Nat :=
  (outerLoop foldDiff indices 0 + 1) % uintModulus

/-- The value `(memrefType.getShape()[dim] + factor - 1) / factor` with
`unsigned factor = accessNum`; the arithmetic is signed 64-bit with truncating division
(sums are assumed to stay below `2 ^ 63`). -/
def blockFactor (size : Int) (accessNum : Nat) : Int :=
  Int.tdiv (size + ((accessNum % uintModulus : Nat) : Int) - 1)
    ((accessNum % uintModulus : Nat) : Int)

/-- The partition strategy of one dimension: the pair of the expression pushed on
`partitionIndices` and the expression pushed on `addressIndices`. -/
def partitionDim (foldDiff : FoldDiff) (size : Int) (dim : Nat) (indices : List AffineExpr) :
    AffineExpr × AffineExpr :=
  if maxDistance foldDiff indices = 1 then
    (AffineExpr.const 0, AffineExpr.dim dim)
  else if maxDistance foldDiff indices ≤ indices.length then
    (AffineExpr.mod (AffineExpr.dim dim) (AffineExpr.const (maxDistance foldDiff indices)),
      AffineExpr.floorDiv (AffineExpr.dim dim)
        (AffineExpr.const (maxDistance foldDiff indices)))
  else
    (AffineExpr.floorDiv (AffineExpr.dim dim)
        (AffineExpr.const (blockFactor size indices.length)),
      AffineExpr.mod (AffineExpr.dim dim)
        (AffineExpr.const (blockFactor size indices.length)))

/-- The loop `for (unsigned dim = 0; dim < memrefType.getRank(); ++dim)`, run over the
remaining dimension sizes with the current value of `dim`. -/
def dimLoop (foldDiff : FoldDiff) (loadStores : List AccessOp) :
    List Int → Nat → List AffineExpr → List AffineExpr →
      Option (List AffineExpr × List AffineExpr)
  | [], _, partitionIndices, addressIndices => some (partitionIndices, addressIndices)
  | size :: rest, dim, partitionIndices, addressIndices =>
    match collectIndices dim loadStores [] with
    | none => none
    | some indices =>
      dimLoop foldDiff loadStores rest (dim + 1)
        (partitionIndices ++ [(partitionDim foldDiff size dim indices).1])
        (addressIndices ++ [(partitionDim foldDiff size dim indices).2])

/-- The body of the loop over the access map for one array: the new type of the
memref. -/
def partitionMemRef (foldDiff : FoldDiff) (memrefType : MemRefType)
    (loadStores : List AccessOp) : Option MemRefType :=
  match dimLoop foldDiff loadStores memrefType.shape 0 [] [] with
  | none => none
  | some (partitionIndices, addressIndices) =>
    some { shape := memrefType.shape
           elementType := memrefType.elementType
           layout := { numDims := memrefType.shape.length
                       numSymbols := 0
                       results := partitionIndices ++ addressIndices }
           memorySpace := memrefType.memorySpace }

/-- The function `applyArrayPartition`: every pair of the access map in turn, the types
of the memrefs being updated in place (`memref.setType(newType)`). -/
def applyArrayPartition (foldDiff : FoldDiff) :
    List (Nat × List AccessOp) → (Nat → MemRefType) → Option (Nat → MemRefType)
  | [], types => some types
  | (memref, loadStores) :: rest, types =>
    match partitionMemRef foldDiff (types memref) loadStores with
    | none => none
    | some newType => applyArrayPartition foldDiff rest (Function.update types memref newType)

/-! ## Specification-level quantities of the partition selector -/

/-- All pairs `(indices[i], indices[j])` with `i < j`. -/
def indexPairs : List AffineExpr → List (AffineExpr × AffineExpr)
  | [] => []
  | xi :: rest => rest.map (fun xj => (xi, xj)) ++ indexPairs rest

/-- The absolute values of the constant differences of all pairs.  This definition and
the next follow the specification, not the code. -/
def foldedDiffs (foldDiff : FoldDiff) (indices : List AffineExpr) : List Nat :=
  (indexPairs indices).filterMap (fun p => (foldDiff p.2 p.1).map Int.natAbs)

/-- The quantity `maxDiff` of the specification: the maximum absolute constant
difference over all pairs, `0` when no pair folds. -/
def specMaxDiff (foldDiff : FoldDiff) (indices : List AffineExpr) : Nat :=
  (foldedDiffs foldDiff indices).foldl max 0

/-- The access sites `{i, i+1, i+2}` on a one-dimensional array. -/
def windowAccesses : List AccessOp :=
  [[AffineExpr.dim 0], [AffineExpr.add (AffineExpr.dim 0) (AffineExpr.const 1)],
    [AffineExpr.add (AffineExpr.dim 0) (AffineExpr.const 2)]]

/-- The access sites `{0, 4}` on a one-dimensional array. -/
def sparseAccesses : List AccessOp := [[AffineExpr.const 0], [AffineExpr.const 4]]

/-- The access sites `{0, 2 ^ 32}` on a one-dimensional array. -/
def farAccesses : List AccessOp := [[AffineExpr.const 0], [AffineExpr.const 4294967296]]

/-- The unique indices of `windowAccesses`. -/
def windowIndices : List AffineExpr :=
  [AffineExpr.dim 0, AffineExpr.add (AffineExpr.dim 0) (AffineExpr.const 1),
    AffineExpr.add (AffineExpr.dim 0) (AffineExpr.const 2)]

/-- The unique indices of `sparseAccesses`. -/
def sparseIndices : List AffineExpr := [AffineExpr.const 0, AffineExpr.const 4]

/-- The unique indices of `farAccesses`. -/
def farIndices : List AffineExpr := [AffineExpr.const 0, AffineExpr.const 4294967296]

/-- A one-dimensional memref type of the given size with the identity layout. -/
def vectorType (size : Int) : MemRefType :=
  { shape := [size], elementType := 0,
    layout := { numDims := 1, numSymbols := 0, results := [AffineExpr.dim 0] },
    memorySpace := 0 }

/-- A node `0` whose only output buffer `1` has one producer and no consumer. -/
def deadEnd : Dataflow where
  nodes := [0]
  outputs := fun n => if n = 0 then [1] else []
  dependentConsumers := fun _ _ => []
  producers := fun b => if b = 1 then [0] else []
  schedules := [0]
  scheduleOps := fun _ => [0]

/-- The unique indices `{0, 2 ^ 32 - 1}`. -/
def wrapIndices : List AffineExpr := [AffineExpr.const 0, AffineExpr.const 4294967295]

/-- The unique indices `{i, i + (2 ^ 32 - 1)}`. -/
def strideIndices : List AffineExpr :=
  [AffineExpr.dim 0, AffineExpr.add (AffineExpr.dim 0) (AffineExpr.const 4294967295)]

/-! ## Loop nests and `ArrayPartition::runOnOperation` -/

/-- The operations of a function body the pass looks at: affine loads and stores (the
memref and the results of the affine map) and affine loops with their `pipeline`
attribute (`none` when the attribute is absent or not a boolean) and their body. -/
inductive Op where
  | load (memref : Nat) (map : AccessOp)
  | store (memref : Nat) (map : AccessOp)
  | forOp (id : Nat) (pipeline : Option Bool) (body : List Op)

/-- The identifier of a loop. -/
def Op.loopId : Op → Option Nat
  | Op.forOp id _ _ => some id
  | _ => none

/-- The operations directly inside a loop. -/
def Op.body : Op → List Op
  | Op.forOp _ _ body => body
  | _ => []

/-- The test of the callback in `getPipelineLoop`: the attribute `pipeline` is present
as a boolean attribute and its value is true. -/
def Op.pipelined : Op → Bool
  | Op.forOp _ (some true) _ => true
  | _ => false

mutual
/-- The loops visited by `walk` with a callback on `AffineForOp`.  The walk of the
framework is post-order: the operations nested in a loop are visited before the loop
itself. -/
def Op.walkLoops : Op → List Op
  | Op.load _ _ => []
  | Op.store _ _ => []
  | Op.forOp id pipeline body => walkLoopsList body ++ [Op.forOp id pipeline body]
/-- The walk over a list of operations, in order. -/
def walkLoopsList : List Op → List Op
  | [] => []
  | op :: rest => op.walkLoops ++ walkLoopsList rest
end

mutual
/-- The loads visited by `walk` with a callback on `AffineLoadOp`, each as the pair of
`getMemRef()` and the access. -/
def Op.walkLoads : Op → List (Nat × AccessOp)
  | Op.load memref map => [(memref, map)]
  | Op.store _ _ => []
  | Op.forOp _ _ body => walkLoadsList body
/-- The loads of a list of operations, in order. -/
def walkLoadsList : List Op → List (Nat × AccessOp)
  | [] => []
  | op :: rest => op.walkLoads ++ walkLoadsList rest
end

mutual
/-- The stores visited by `walk` with a callback on `AffineStoreOp`. -/
def Op.walkStores : Op → List (Nat × AccessOp)
  | Op.load _ _ => []
  | Op.store memref map => [(memref, map)]
  | Op.forOp _ _ body => walkStoresList body
/-- The stores of a list of operations, in order. -/
def walkStoresList : List Op → List (Nat × AccessOp)
  | [] => []
  | op :: rest => op.walkStores ++ walkStoresList rest
end

/-- The function `getPipelineLoop`: `nestedLoops` holds the visited loops that pass the
test, and the result is `nestedLoops.back()`, or no loop when the vector is empty. -/
def getPipelineLoop (root : Op) : Option Op :=
  (root.walkLoops.filter Op.pipelined).getLast?

/-- The statement `map[memref].push_back(op)` on an access map kept as an association
list in order of first insertion (the iteration order of the map is immaterial: its keys
are distinct memrefs). -/
def pushAccess (memref : Nat) (op : AccessOp) :
    List (Nat × List AccessOp) → List (Nat × List AccessOp)
  | [] => [(memref, [op])]
  | (m, ops) :: rest =>
    if m = memref then (m, ops ++ [op]) :: rest
    else (m, ops) :: pushAccess memref op rest

/-- The access map filled by a walk. -/
def buildMap (accesses : List (Nat × AccessOp)) : List (Nat × List AccessOp) :=
  accesses.foldl (fun map a => pushAccess a.1 a.2 map) []

/-- The body of `if (auto outermost = getPipelineLoop(forOp))`: both maps are collected,
then the partition is applied for the loads and after that for the stores. -/
def partitionLoop (foldDiff : FoldDiff) (outermost : Op) (types : Nat → MemRefType) :
    Option (Nat → MemRefType) :=
  match applyArrayPartition foldDiff (buildMap outermost.walkLoads) types with
  | none => none
  | some types1 => applyArrayPartition foldDiff (buildMap outermost.walkStores) types1

/-- One iteration of `for (auto forOp : func.getOps<mlir::AffineForOp>())`. -/
def partitionNest (foldDiff : FoldDiff) (forOp : Op) (types : Nat → MemRefType) :
    Option (Nat → MemRefType) :=
  match getPipelineLoop forOp with
  | none => some types
  | some outermost => partitionLoop foldDiff outermost types

/-- The loop of `ArrayPartition::runOnOperation` over the top-level loops of the
function (other top-level operations are not visited). -/
def ArrayPartition.runOnOperation (foldDiff : FoldDiff) :
    List Op → (Nat → MemRefType) → Option (Nat → MemRefType)
  | [], types => some types
  | Op.forOp id pipeline body :: rest, types =>
    match partitionNest foldDiff (Op.forOp id pipeline body) types with
    | none => none
    | some types1 => ArrayPartition.runOnOperation foldDiff rest types1
  | _ :: rest, types => ArrayPartition.runOnOperation foldDiff rest types

/-- The accesses of one memref among the visited accesses, in order. -/
def accessesOf (accesses : List (Nat × AccessOp)) (memref : Nat) : List AccessOp :=
  (accesses.filter (fun a => a.1 = memref)).map (fun a => a.2)

/-- A nest whose loops carry `pipeline = false` or no annotation. -/
def unpipelined : Op :=
  Op.forOp 0 (some false) [Op.forOp 1 none [Op.load 0 [AffineExpr.dim 0]]]

/-- The access sites `{i+2, i, i+1, i}`: those of `windowAccesses` in another order, one
of them repeated. -/
def shuffledAccesses : List AccessOp :=
  [[AffineExpr.add (AffineExpr.dim 0) (AffineExpr.const 2)], [AffineExpr.dim 0],
    [AffineExpr.add (AffineExpr.dim 0) (AffineExpr.const 1)], [AffineExpr.dim 0]]

/-! ## Reachable states, batch rounds and paths -/

/-- The states reachable from `st0` by successful applications of the pattern to nodes
of the function, in any order. -/
inductive Reach (ignoreViolations : Bool) (g : Dataflow) (st0 : Levels) : Levels → Prop
  | refl : Reach ignoreViolations g st0 st0
  | step (st st1 : Levels) (n : Nat) : Reach ignoreViolations g st0 st → n ∈ g.nodes →
      matchAndRewrite ignoreViolations g st n = some st1 → Reach ignoreViolations g st0 st1

/-- A fixpoint: the pattern fails on every node of the function. -/
def IsFixpoint (ignoreViolations : Bool) (g : Dataflow) (st : Levels) : Prop :=
  ∀ n ∈ g.nodes, matchAndRewrite ignoreViolations g st n = none

/-- Modelled from the spec: a round that evaluates the scheduling rule of every node
against the state at the start of the round and commits all new levels together at the
end of the round. -/
def batchRound (ignoreViolations : Bool) (g : Dataflow) (st : Levels) : Levels :=
  fun m =>
    if m ∈ g.nodes then
      match matchAndRewrite ignoreViolations g st m with
      | some st1 => st1 m
      | none => st m
    else st m

/-- The same graph with its nodes visited in another order. -/
def withNodes (g : Dataflow) (ns : List Nat) : Dataflow :=
  { nodes := ns, outputs := g.outputs, dependentConsumers := g.dependentConsumers,
    producers := g.producers, schedules := g.schedules, scheduleOps := g.scheduleOps }

/-- A producer-to-consumer path: `Path g n m k` is a path with `k` edges from `n` to
`m`. -/
inductive Path (g : Dataflow) : Nat → Nat → Nat → Prop
  | nil (n : Nat) : Path g n n 0
  | cons (n c m k : Nat) : edge g n c → Path g c m k → Path g n m (k + 1)

/-- A diamond `0 -> {1, 2} -> 3` with a longer branch `0 -> 1 -> 2`: buffer `10` of node
`0` feeds nodes `1` and `2`, buffer `11` of node `1` feeds node `2`, buffer `12` of node
`2` feeds node `3`. -/
def diamond : Dataflow where
  nodes := [0, 1, 2, 3]
  outputs := fun n => if n = 0 then [10] else if n = 1 then [11] else if n = 2 then [12] else []
  dependentConsumers := fun b _ =>
    if b = 10 then [1, 2] else if b = 11 then [2] else if b = 12 then [3] else []
  producers := fun b => if b = 10 then [0] else if b = 11 then [1] else if b = 12 then [2] else []
  schedules := [0]
  scheduleOps := fun _ => [0, 1, 2, 3]

/-- The batch commit restricted to a list of nodes. -/
def batchOn (ignoreViolations : Bool) (g : Dataflow) (ns : List Nat) (st : Levels) :
    Levels :=
  fun m =>
    if m ∈ ns then
      match matchAndRewrite ignoreViolations g st m with
      | some st1 => st1 m
      | none => st m
    else st m

/-- A node `0` whose only output buffer `1` has two producers `0` and `2` and the one
consumer `1`. -/
def twoProducers : Dataflow where
  nodes := [0, 1, 2]
  outputs := fun n => if n = 0 then [1] else []
  dependentConsumers := fun b _ => if b = 1 then [1] else []
  producers := fun b => if b = 1 then [0, 2] else []
  schedules := [0]
  scheduleOps := fun _ => [0, 1, 2]

/-- A node `0` whose only output buffer `1` has no producer and the one consumer `1`. -/
def orphan : Dataflow where
  nodes := [0, 1]
  outputs := fun n => if n = 0 then [1] else []
  dependentConsumers := fun b _ => if b = 1 then [1] else []
  producers := fun _ => []
  schedules := [0]
  scheduleOps := fun _ => [0, 1]

/-- A state in which every node but node `0` has level `0`. -/
def othersLeveled : Levels := fun n => if n = 0 then none else some 0

/-- The relation `Op.Contains scope op`: the operation `op` is `scope` itself or lies in
the body of `scope`, at any depth. -/
inductive Op.Contains : Op → Op → Prop
  | self (op : Op) : Op.Contains op op
  | nested (id : Nat) (pipeline : Option Bool) (body : List Op) (inner op : Op) :
      inner ∈ body → Op.Contains inner op → Op.Contains (Op.forOp id pipeline body) op

/-- A pipelined loop that reads array `0` at `{i, i+1, i+2}` and writes it at `{0, 4}`,
and whose inner loop reads array `1` at `{i, i+1, i+2}` without writing it. -/
def readWrite : Op :=
  Op.forOp 0 (some true)
    [Op.load 0 [AffineExpr.dim 0],
      Op.load 0 [AffineExpr.add (AffineExpr.dim 0) (AffineExpr.const 1)],
      Op.load 0 [AffineExpr.add (AffineExpr.dim 0) (AffineExpr.const 2)],
      Op.store 0 [AffineExpr.const 0], Op.store 0 [AffineExpr.const 4],
      Op.forOp 1 none
        [Op.load 1 [AffineExpr.dim 0],
          Op.load 1 [AffineExpr.add (AffineExpr.dim 0) (AffineExpr.const 1)],
          Op.load 1 [AffineExpr.add (AffineExpr.dim 0) (AffineExpr.const 2)]]]

/-! ## Lemmas on the scheduling rule -/

theorem matchAndRewrite_of_leveled (ig : Bool) (g : Dataflow) (st : Levels) (n : Nat)
    (h : (st n).isSome = true) : matchAndRewrite ig g st n = none := by
  simp [matchAndRewrite, h]

theorem matchAndRewrite_some (ig : Bool) (g : Dataflow) (st st1 : Levels) (n : Nat)
    (h : matchAndRewrite ig g st n = some st1) :
    st n = none ∧ ∃ l, outputLoop ig g st n (g.outputs n) 0 = some l ∧
      st1 = Function.update st n (some l) := by
  unfold matchAndRewrite at h
  split at h
  · exact absurd h (by simp)
  · rename_i hn
    split at h
    · exact absurd h (by simp)
    · rename_i l hl
      refine ⟨?_, l, hl, ?_⟩
      · cases hs : st n with
        | none => rfl
        | some v => simp [hs] at hn
      · exact (Option.some.inj h).symm

theorem matchAndRewrite_keeps (ig : Bool) (g : Dataflow) (st st1 : Levels) (n m l : Nat)
    (h : matchAndRewrite ig g st n = some st1) (hm : st m = some l) : st1 m = some l := by
  obtain ⟨hn, l1, _, rfl⟩ := matchAndRewrite_some ig g st st1 n h
  by_cases hmn : m = n
  · subst hmn; rw [hn] at hm; exact absurd hm (by simp)
  · rw [Function.update_noteq hmn]; exact hm

theorem scanNodes_keeps (ig : Bool) (g : Dataflow) (ns : List Nat) :
    ∀ (st : Levels) (m l : Nat), st m = some l → (scanNodes ig g ns st).1 m = some l := by
  induction ns with
  | nil => intro st m l h; exact h
  | cons n rest ih =>
    intro st m l h
    unfold scanNodes
    cases hr : matchAndRewrite ig g st n with
    | none => exact ih st m l h
    | some st1 => exact ih st1 m l (matchAndRewrite_keeps ig g st st1 n m l hr h)

theorem scanNodes_false (ig : Bool) (g : Dataflow) (ns : List Nat) :
    ∀ (st : Levels), (scanNodes ig g ns st).2 = false →
      (scanNodes ig g ns st).1 = st ∧ ∀ n ∈ ns, matchAndRewrite ig g st n = none := by
  induction ns with
  | nil => intro st _; exact ⟨rfl, by simp⟩
  | cons n rest ih =>
    intro st h
    unfold scanNodes at h ⊢
    cases hr : matchAndRewrite ig g st n with
    | none =>
      rw [hr] at h
      obtain ⟨h1, h2⟩ := ih st h
      refine ⟨h1, ?_⟩
      intro m hm
      rcases List.mem_cons.mp hm with rfl | hm
      · exact hr
      · exact h2 m hm
    | some st1 => rw [hr] at h; exact absurd h (by simp)

theorem scanNodes_true (ig : Bool) (g : Dataflow) (ns : List Nat) :
    ∀ (st : Levels), (scanNodes ig g ns st).2 = true →
      ∃ n ∈ ns, st n = none ∧ ((scanNodes ig g ns st).1 n).isSome = true := by
  induction ns with
  | nil => intro st h; exact absurd h (by simp [scanNodes])
  | cons n rest ih =>
    intro st h
    unfold scanNodes at h ⊢
    cases hr : matchAndRewrite ig g st n with
    | none =>
      rw [hr] at h
      obtain ⟨m, hm, h1, h2⟩ := ih st h
      exact ⟨m, List.mem_cons_of_mem _ hm, h1, h2⟩
    | some st1 =>
      obtain ⟨hn, l, _, rfl⟩ := matchAndRewrite_some ig g st st1 n hr
      refine ⟨n, List.mem_cons_self _ _, hn, ?_⟩
      have := scanNodes_keeps ig g rest (Function.update st n (some l)) n l (by simp)
      simp [this]

/-! ## Lemmas on the driver -/

theorem countP_lt_of_strict (p q : Nat → Bool) :
    ∀ (l : List Nat), (∀ x ∈ l, q x = true → p x = true) →
      (∃ x ∈ l, p x = true ∧ q x = false) → l.countP q < l.countP p := by
  intro l
  induction l with
  | nil => intro _ h; obtain ⟨x, hx, _⟩ := h; exact absurd hx (List.not_mem_nil x)
  | cons a rest ih =>
    intro hsub hex
    have hle : rest.countP q ≤ rest.countP p :=
      List.countP_mono_left (fun x hx => hsub x (List.mem_cons_of_mem _ hx))
    obtain ⟨x, hx, hpx, hqx⟩ := hex
    rw [List.countP_cons, List.countP_cons]
    rcases List.mem_cons.mp hx with rfl | hx
    · simp [hpx, hqx]; omega
    · have hlt := ih (fun y hy => hsub y (List.mem_cons_of_mem _ hy)) ⟨x, hx, hpx, hqx⟩
      by_cases hqa : q a = true
      · have hpa := hsub a (List.mem_cons_self _ _) hqa
        simp [hpa, hqa]; omega
      · simp [hqa]; split <;> omega

theorem unleveled_le_length (g : Dataflow) (st : Levels) : unleveled g st ≤ g.nodes.length :=
  List.countP_le_length _

theorem unleveled_scan_lt (ig : Bool) (g : Dataflow) (st : Levels)
    (h : (scanNodes ig g g.nodes st).2 = true) :
    unleveled g (scanNodes ig g g.nodes st).1 < unleveled g st := by
  obtain ⟨n, hn, h1, h2⟩ := scanNodes_true ig g g.nodes st h
  apply countP_lt_of_strict
  · intro x _ hx
    cases hs : st x with
    | none => rfl
    | some l => rw [scanNodes_keeps ig g g.nodes st x l hs] at hx; exact absurd hx (by simp)
  · refine ⟨n, hn, by simp [h1], ?_⟩
    cases hs : (scanNodes ig g g.nodes st).1 n with
    | none => rw [hs] at h2; exact absurd h2 (by simp)
    | some l => rfl

theorem scan_false_of_all_leveled (ig : Bool) (g : Dataflow) (st : Levels)
    (h : ∀ n ∈ g.nodes, (st n).isSome = true) : (scanNodes ig g g.nodes st).2 = false := by
  cases hf : (scanNodes ig g g.nodes st).2 with
  | false => rfl
  | true =>
    obtain ⟨n, hn, h1, _⟩ := scanNodes_true ig g g.nodes st hf
    have := h n hn
    rw [h1] at this
    exact absurd this (by simp)

theorem all_leveled_of_unleveled_zero (g : Dataflow) (st : Levels) (h : unleveled g st = 0) :
    ∀ n ∈ g.nodes, (st n).isSome = true := by
  intro n hn
  unfold unleveled at h
  rw [List.countP_eq_zero] at h
  have := h n hn
  cases hs : st n with
  | none => rw [hs] at this; exact absurd rfl this
  | some l => rfl

theorem driver_progress (ig : Bool) (g : Dataflow) :
    ∀ (k : Nat) (st : Levels),
      (scanNodes ig g g.nodes (applyPatternsGreedily ig g k st)).2 = false ∨
        unleveled g (applyPatternsGreedily ig g k st) + k ≤ unleveled g st := by
  intro k
  induction k with
  | zero => intro st; right; simp [applyPatternsGreedily]
  | succ k ih =>
    intro st
    unfold applyPatternsGreedily
    cases hf : (scanNodes ig g g.nodes st).2 with
    | true =>
      simp only [if_true]
      have hlt := unleveled_scan_lt ig g st hf
      rcases ih (scanNodes ig g g.nodes st).1 with h | h
      · left; exact h
      · right; omega
    | false =>
      simp only [Bool.false_eq_true, if_false]
      left
      rw [(scanNodes_false ig g g.nodes st hf).1]
      exact hf

theorem driver_fixpoint (ig : Bool) (g : Dataflow) (k : Nat) (st : Levels)
    (hk : g.nodes.length ≤ k) :
    (scanNodes ig g g.nodes (applyPatternsGreedily ig g k st)).2 = false := by
  rcases driver_progress ig g k st with h | h
  · exact h
  · have := unleveled_le_length g st
    exact scan_false_of_all_leveled ig g _
      (all_leveled_of_unleveled_zero g _ (by omega))

theorem driver_succ (ig : Bool) (g : Dataflow) :
    ∀ (k : Nat) (st : Levels),
      applyPatternsGreedily ig g (k + 1) st =
        applyPatternsGreedily ig g 1 (applyPatternsGreedily ig g k st) := by
  intro k
  induction k with
  | zero => intro st; rfl
  | succ k ih =>
    intro st
    cases hf : (scanNodes ig g g.nodes st).2 with
    | true =>
      have e1 : applyPatternsGreedily ig g (k + 1 + 1) st =
          applyPatternsGreedily ig g (k + 1) (scanNodes ig g g.nodes st).1 := by
        conv => lhs; unfold applyPatternsGreedily
        simp [hf]
      have e2 : applyPatternsGreedily ig g (k + 1) st =
          applyPatternsGreedily ig g k (scanNodes ig g g.nodes st).1 := by
        conv => lhs; unfold applyPatternsGreedily
        simp [hf]
      rw [e1, e2, ih]
    | false =>
      have hst := (scanNodes_false ig g g.nodes st hf).1
      have e : ∀ j, applyPatternsGreedily ig g (j + 1) st = st := by
        intro j
        conv => lhs; unfold applyPatternsGreedily
        simp [hf, hst]
      rw [e (k + 1), e k, e 0]

theorem driver_stable (ig : Bool) (g : Dataflow) (st : Levels) :
    ∀ (j : Nat), applyPatternsGreedily ig g (g.nodes.length + j) st =
      applyPatternsGreedily ig g g.nodes.length st := by
  intro j
  induction j with
  | zero => rfl
  | succ j ih =>
    rw [← Nat.add_assoc, driver_succ, ih]
    have hf := driver_fixpoint ig g g.nodes.length st (Nat.le_refl _)
    have hst := (scanNodes_false ig g g.nodes _ hf).1
    conv => lhs; unfold applyPatternsGreedily
    simp [hf, hst, applyPatternsGreedily]

/-! ## Characterisation of the two loops -/

theorem consumerLoop_none_iff (st : Levels) :
    ∀ (cs : List Nat) (lvl : Nat), consumerLoop st cs lvl = none ↔ ∃ c ∈ cs, st c = none := by
  intro cs
  induction cs with
  | nil => intro lvl; simp [consumerLoop]
  | cons c rest ih =>
    intro lvl
    unfold consumerLoop
    cases hc : st c with
    | none => simp [hc]
    | some cl =>
      simp only [ih, List.mem_cons, exists_eq_or_imp, hc]
      simp

theorem outputLoop_violation (g : Dataflow) (st : Levels) (n : Nat) :
    ∀ (outs : List Nat) (lvl : Nat), (∃ b ∈ outs, hasViolation g n b = true) →
      outputLoop false g st n outs lvl = none := by
  intro outs
  induction outs with
  | nil => intro lvl h; obtain ⟨b, hb, _⟩ := h; exact absurd hb (List.not_mem_nil b)
  | cons o rest ih =>
    intro lvl h
    unfold outputLoop
    by_cases hv : hasViolation g n o = true
    · simp [hv]
    · have hrest : ∃ b ∈ rest, hasViolation g n b = true := by
        obtain ⟨b, hb, hvb⟩ := h
        rcases List.mem_cons.mp hb with rfl | hb
        · exact absurd hvb hv
        · exact ⟨b, hb, hvb⟩
      simp only [hv, Bool.and_false, Bool.false_eq_true, if_false]
      cases consumerLoop st (g.dependentConsumers o n) lvl with
      | none => rfl
      | some l1 => exact ih l1 hrest

theorem outputLoop_none_iff (ig : Bool) (g : Dataflow) (st : Levels) (n : Nat) :
    ∀ (outs : List Nat) (lvl : Nat),
      (∀ b ∈ outs, (!ig && hasViolation g n b) = false) →
      (outputLoop ig g st n outs lvl = none ↔
        ∃ b ∈ outs, ∃ c ∈ g.dependentConsumers b n, st c = none) := by
  intro outs
  induction outs with
  | nil => intro lvl _; simp [outputLoop]
  | cons o rest ih =>
    intro lvl hv
    have hvo := hv o (List.mem_cons_self _ _)
    have hvr : ∀ b ∈ rest, (!ig && hasViolation g n b) = false :=
      fun b hb => hv b (List.mem_cons_of_mem _ hb)
    unfold outputLoop
    simp only [hvo, Bool.false_eq_true, if_false, List.mem_cons, exists_eq_or_imp]
    cases hc : consumerLoop st (g.dependentConsumers o n) lvl with
    | none =>
      simp only [true_iff]
      left
      exact (consumerLoop_none_iff st _ lvl).mp hc
    | some l1 =>
      have hno : ¬ ∃ c ∈ g.dependentConsumers o n, st c = none := by
        intro hex
        rw [(consumerLoop_none_iff st _ lvl).mpr hex] at hc
        exact absurd hc (by simp)
      simp only [ih l1 hvr, hno, false_or]

theorem matchAndRewrite_none_iff (ig : Bool) (g : Dataflow) (st : Levels) (n : Nat)
    (hn : st n = none) (hv : ∀ b ∈ g.outputs n, (!ig && hasViolation g n b) = false) :
    matchAndRewrite ig g st n = none ↔
      ∃ b ∈ g.outputs n, ∃ c ∈ g.dependentConsumers b n, st c = none := by
  rw [← outputLoop_none_iff ig g st n (g.outputs n) 0 hv]
  unfold matchAndRewrite
  simp only [hn, Option.isSome_none, Bool.false_eq_true, if_false]
  cases outputLoop ig g st n (g.outputs n) 0 with
  | none => simp
  | some l => simp

theorem wellFormed_no_violation (g : Dataflow) (hwf : WellFormed g) (n : Nat)
    (hn : n ∈ g.nodes) : ∀ b ∈ g.outputs n, (!false && hasViolation g n b) = false := by
  intro b hb
  obtain ⟨h1, h2⟩ := hwf n hn b hb
  simp [hasViolation, h1, h2]

/-! ## A fixpoint of an acyclic well-formed graph has every node leveled -/

theorem leveled_of_fixpoint (g : Dataflow) (st : Levels)
    (hacyc : Acyclic g) (hclosed : Closed g) (hwf : WellFormed g)
    (hfix : ∀ n ∈ g.nodes, matchAndRewrite false g st n = none) :
    ∀ n ∈ g.nodes, (st n).isSome = true := by
  let r : {n // n ∈ g.nodes} → {n // n ∈ g.nodes} → Prop :=
    fun a b => Relation.TransGen (edge g) b.1 a.1
  haveI : IsTrans {n // n ∈ g.nodes} r := ⟨fun a b c hab hbc => Relation.TransGen.trans hbc hab⟩
  haveI : IsIrrefl {n // n ∈ g.nodes} r := ⟨fun a h => hacyc a.1 h⟩
  have hwfr : WellFounded r := Finite.wellFounded_of_trans_of_irrefl r
  have key : ∀ a : {n // n ∈ g.nodes}, (st a.1).isSome = true := by
    intro a
    induction a using hwfr.induction with
    | _ a ih =>
      cases hs : st a.1 with
      | some l => rfl
      | none =>
        exfalso
        have hnone := hfix a.1 a.2
        rw [matchAndRewrite_none_iff false g st a.1 hs
          (wellFormed_no_violation g hwf a.1 a.2)] at hnone
        obtain ⟨b, hb, c, hc, hcn⟩ := hnone
        have hcm : c ∈ g.nodes := hclosed a.1 a.2 b hb c hc
        have := ih ⟨c, hcm⟩ (Relation.TransGen.single ⟨a.2, b, hb, hc⟩)
        simp only at this
        rw [hcn] at this
        exact absurd this (by simp)
  exact fun n hn => key ⟨n, hn⟩

/-! ## Legality marking -/

theorem markLegal_apply (g : Dataflow) (st : Levels) :
    ∀ (rs : List Nat) (legal : Nat → Bool) (r : Nat),
      markLegal g st rs legal r = (legal r || (decide (r ∈ rs) && allLeveled g st r)) := by
  intro rs
  induction rs with
  | nil => intro legal r; simp [markLegal]
  | cons a rest ih =>
    intro legal r
    unfold markLegal
    by_cases ha : allLeveled g st a = true
    · simp only [ha, if_true, ih]
      by_cases hra : r = a
      · subst hra; simp [ha]
      · simp [Function.update_noteq hra, hra]
    · simp only [ha, Bool.false_eq_true, if_false, ih]
      by_cases hra : r = a
      · subst hra; simp [ha]
      · simp [hra]

theorem acyclic_of_rank (g : Dataflow) (rk : Nat → Nat)
    (h : ∀ n ∈ g.nodes, ∀ b ∈ g.outputs n, ∀ c ∈ g.dependentConsumers b n, rk c < rk n) :
    Acyclic g := by
  have hlt : ∀ n m, Relation.TransGen (edge g) n m → rk m < rk n := by
    intro n m hnm
    induction hnm with
    | single e => obtain ⟨hn, b, hb, hc⟩ := e; exact h _ hn b hb _ hc
    | tail _ e ih => obtain ⟨hn, b, hb, hc⟩ := e; exact lt_trans (h _ hn b hb _ hc) ih
  intro n hn
  exact absurd (hlt n n hn) (lt_irrefl _)

/-! ## Claims on the scheduler -/

/-- C1: for a finite acyclic dataflow graph whose buffers all have exactly one producer
and exactly one consumer, the pass run with `ignoreViolations = false` and at least
`nodeCount` rounds available ends in the state reached after `nodeCount` rounds, a further
round assigns nothing to it, every node has a level in it, and every schedule region
made of nodes of the graph is marked legal.  This holds from every initial state, in
particular from one in which no node has a level. -/
theorem schedule_acyclic_wellformed (g : Dataflow) (s : FuncState) (maxIterations : Nat)
    (hacyc : Acyclic g) (hclosed : Closed g) (hwf : WellFormed g)
    (hreg : ∀ r ∈ g.schedules, ∀ n ∈ g.scheduleOps r, n ∈ g.nodes)
    (hfuel : g.nodes.length ≤ maxIterations) :
    (runOnOperation false g maxIterations s).level =
        applyPatternsGreedily false g g.nodes.length s.level ∧
      scanNodes false g g.nodes (runOnOperation false g maxIterations s).level =
        ((runOnOperation false g maxIterations s).level, false) ∧
      (∀ n ∈ g.nodes, ((runOnOperation false g maxIterations s).level n).isSome = true) ∧
      (∀ r ∈ g.schedules, (runOnOperation false g maxIterations s).isLegal r = true) := by
  have hlev : (runOnOperation false g maxIterations s).level =
      applyPatternsGreedily false g maxIterations s.level := by
    simp [runOnOperation]
  have hflag := driver_fixpoint false g maxIterations s.level hfuel
  have hfix := scanNodes_false false g g.nodes _ hflag
  have hall := leveled_of_fixpoint g _ hacyc hclosed hwf hfix.2
  refine ⟨?_, ?_, ?_, ?_⟩
  · obtain ⟨j, rfl⟩ := Nat.exists_eq_add_of_le hfuel
    rw [hlev]
    exact driver_stable false g s.level j
  · rw [hlev]
    exact Prod.ext hfix.1 hflag
  · rw [hlev]; exact hall
  · intro r hr
    have hr1 : allLeveled g (applyPatternsGreedily false g maxIterations s.level) r = true := by
      unfold allLeveled
      rw [List.all_eq_true]
      intro n hn
      exact hall n (hreg r hr n hn)
    simp [runOnOperation, markLegal_apply, hr, hr1]

/-- C1, witness: the chain `A -> buf1 -> B -> buf2 -> C` gives `C.level = 0`,
`B.level = 1`, `A.level = 2` and a legal region. -/
theorem schedule_acyclic_wellformed_witness :
    (runOnOperation false chain 3 emptyState).level 2 = some 0 ∧
      (runOnOperation false chain 3 emptyState).level 1 = some 1 ∧
      (runOnOperation false chain 3 emptyState).level 0 = some 2 ∧
      (runOnOperation false chain 3 emptyState).isLegal 0 = true ∧
      (∀ n ∈ chain.nodes, ((runOnOperation false chain 3 emptyState).level n).isSome = true) ∧
      (∀ r ∈ chain.schedules, (runOnOperation false chain 3 emptyState).isLegal r = true) :=
  have h := schedule_acyclic_wellformed chain emptyState 3
    (acyclic_of_rank chain (fun n => 2 - n) (by decide))
    (by unfold Closed; decide) (by unfold WellFormed; decide) (by decide) (by decide)
  ⟨by decide, by decide, by decide, by decide, h.2.2.1, h.2.2.2⟩

/-! ## The value computed by the two loops -/

theorem consumerLoop_val (st : Levels) :
    ∀ (cs : List Nat) (lvl l : Nat), consumerLoop st cs lvl = some l →
      l = (cs.map (fun c => ((st c).getD 0 + 1) % uintModulus)).foldl max lvl := by
  intro cs
  induction cs with
  | nil => intro lvl l h; simpa [consumerLoop] using h.symm
  | cons c rest ih =>
    intro lvl l h
    unfold consumerLoop at h
    cases hc : st c with
    | none => rw [hc] at h; exact absurd h (by simp)
    | some cl =>
      rw [hc] at h
      have := ih _ l h
      simpa [hc] using this

theorem outputLoop_val (ig : Bool) (g : Dataflow) (st : Levels) (n : Nat) :
    ∀ (outs : List Nat) (lvl l : Nat), outputLoop ig g st n outs lvl = some l →
      l = ((outs.flatMap (fun b => g.dependentConsumers b n)).map
        (fun c => ((st c).getD 0 + 1) % uintModulus)).foldl max lvl := by
  intro outs
  induction outs with
  | nil => intro lvl l h; simpa [outputLoop] using h.symm
  | cons o rest ih =>
    intro lvl l h
    unfold outputLoop at h
    split at h
    · exact absurd h (by simp)
    · cases hc : consumerLoop st (g.dependentConsumers o n) lvl with
      | none => rw [hc] at h; exact absurd h (by simp)
      | some l1 =>
        rw [hc] at h
        have h1 := consumerLoop_val st _ lvl l1 hc
        have h2 := ih l1 l h
        rw [h2, h1, List.flatMap_cons, List.map_append, List.foldl_append]

theorem mem_allConsumers (g : Dataflow) (n c : Nat) :
    c ∈ allConsumers g n ↔ ∃ b ∈ g.outputs n, c ∈ g.dependentConsumers b n := by
  simp [allConsumers, List.mem_flatMap]

/-- C2 (as amended): for a node without a level whose output buffers pass the violation
check (or with `ignoreViolations` set), the rule succeeds exactly when every consumer of
every output buffer has a level; when every such consumer level is below `2 ^ 32 - 1`,
the level assigned is the maximum of `consumerLevel + 1` over all of them (`0` when there
is none); and a node without output buffers is assigned level `0`. -/
theorem rule_assigns_max (ig : Bool) (g : Dataflow) (st : Levels) (n : Nat)
    (hn : st n = none) (hv : ∀ b ∈ g.outputs n, (!ig && hasViolation g n b) = false)
    (hb : ∀ c ∈ allConsumers g n, (st c).getD 0 < 4294967295) :
    ((matchAndRewrite ig g st n).isSome = true ↔
        ∀ c ∈ allConsumers g n, (st c).isSome = true) ∧
      (∀ st1, matchAndRewrite ig g st n = some st1 →
        st1 = Function.update st n (some (specLevel g st n))) ∧
      (g.outputs n = [] →
        matchAndRewrite ig g st n = some (Function.update st n (some 0))) := by
  refine ⟨?_, ?_, ?_⟩
  · have hiff := matchAndRewrite_none_iff ig g st n hn hv
    constructor
    · intro hs c hc
      obtain ⟨b, hb1, hc1⟩ := (mem_allConsumers g n c).mp hc
      cases hsc : st c with
      | some l => rfl
      | none =>
        rw [hiff.mpr ⟨b, hb1, c, hc1, hsc⟩] at hs
        exact absurd hs (by simp)
    · intro hall
      cases hm : matchAndRewrite ig g st n with
      | some st1 => rfl
      | none =>
        obtain ⟨b, hb1, c, hc1, hsc⟩ := hiff.mp hm
        have := hall c ((mem_allConsumers g n c).mpr ⟨b, hb1, hc1⟩)
        rw [hsc] at this
        exact absurd this (by simp)
  · intro st1 h
    obtain ⟨_, l, hl, rfl⟩ := matchAndRewrite_some ig g st st1 n h
    have hval := outputLoop_val ig g st n (g.outputs n) 0 l hl
    have hmap : ((g.outputs n).flatMap (fun b => g.dependentConsumers b n)).map
        (fun c => ((st c).getD 0 + 1) % uintModulus) =
        (allConsumers g n).map (fun c => (st c).getD 0 + 1) := by
      apply List.map_congr_left
      intro c hc
      have := hb c hc
      apply Nat.mod_eq_of_lt
      unfold uintModulus
      omega
    rw [hmap] at hval
    rw [hval]
    rfl
  · intro ho
    simp [matchAndRewrite, hn, ho, outputLoop]

/-- C2, witness: in the chain with `C.level = 0` and `B.level = 1`, the rule gives
`A.level = 2`. -/
theorem rule_assigns_max_witness :
    ((matchAndRewrite false chain partly 0).isSome = true ↔
        ∀ c ∈ allConsumers chain 0, (partly c).isSome = true) ∧
      (∀ st1, matchAndRewrite false chain partly 0 = some st1 →
        st1 = Function.update partly 0 (some (specLevel chain partly 0))) ∧
      (chain.outputs 0 = [] →
        matchAndRewrite false chain partly 0 = some (Function.update partly 0 (some 0))) :=
  rule_assigns_max false chain partly 0 (by decide) (by decide) (by decide)

/-- C2, counterexample: a consumer that already carries level `2 ^ 32 - 1` passes every
test of the rule, the level the rule assigns is `0`, and the maximum of
`consumerLevel + 1` is `2 ^ 32`. -/
theorem rule_level_wraps :
    saturated 0 = none ∧
      (∀ b ∈ chain.outputs 0, hasViolation chain 0 b = false) ∧
      (∀ c ∈ allConsumers chain 0, (saturated c).isSome = true) ∧
      (matchAndRewrite false chain saturated 0).map (fun st1 => st1 0) = some (some 0) ∧
      specLevel chain saturated 0 = 4294967296 := by
  refine ⟨by decide, by decide, by decide, ?_, ?_⟩
  · decide
  · decide

/-! ## Write-once levels and stuck nodes -/

theorem driver_keeps (ig : Bool) (g : Dataflow) :
    ∀ (k : Nat) (st : Levels) (m l : Nat), st m = some l →
      applyPatternsGreedily ig g k st m = some l := by
  intro k
  induction k with
  | zero => intro st m l h; exact h
  | succ k ih =>
    intro st m l h
    unfold applyPatternsGreedily
    have h1 := scanNodes_keeps ig g g.nodes st m l h
    split
    · exact ih _ m l h1
    · exact h1

theorem rounds_keeps (ig : Bool) (g : Dataflow) :
    ∀ (k : Nat) (st : Levels) (m l : Nat), st m = some l →
      (round ig g)^[k] st m = some l := by
  intro k
  induction k with
  | zero => intro st m l h; exact h
  | succ k ih =>
    intro st m l h
    rw [Function.iterate_succ_apply]
    exact ih _ m l (scanNodes_keeps ig g g.nodes st m l h)

theorem scanNodes_stuck (ig : Bool) (g : Dataflow) (a : Nat)
    (hstuck : ∀ st, matchAndRewrite ig g st a = none) (ns : List Nat) :
    ∀ (st : Levels), st a = none → (scanNodes ig g ns st).1 a = none := by
  induction ns with
  | nil => intro st h; exact h
  | cons n rest ih =>
    intro st h
    unfold scanNodes
    cases hr : matchAndRewrite ig g st n with
    | none => exact ih st h
    | some st1 =>
      obtain ⟨_, l, _, rfl⟩ := matchAndRewrite_some ig g st st1 n hr
      apply ih
      have hne : a ≠ n := by
        intro e
        subst e
        rw [hstuck st] at hr
        exact absurd hr (by simp)
      rw [Function.update_noteq hne]
      exact h

theorem driver_stuck (ig : Bool) (g : Dataflow) (a : Nat)
    (hstuck : ∀ st, matchAndRewrite ig g st a = none) :
    ∀ (k : Nat) (st : Levels), st a = none → applyPatternsGreedily ig g k st a = none := by
  intro k
  induction k with
  | zero => intro st h; exact h
  | succ k ih =>
    intro st h
    unfold applyPatternsGreedily
    have h1 := scanNodes_stuck ig g a hstuck g.nodes st h
    split
    · exact ih _ h1
    · exact h1

theorem rounds_stuck (ig : Bool) (g : Dataflow) (a : Nat)
    (hstuck : ∀ st, matchAndRewrite ig g st a = none) :
    ∀ (k : Nat) (st : Levels), st a = none → (round ig g)^[k] st a = none := by
  intro k
  induction k with
  | zero => intro st h; exact h
  | succ k ih =>
    intro st h
    rw [Function.iterate_succ_apply]
    exact ih _ (scanNodes_stuck ig g a hstuck g.nodes st h)

theorem multi_consumer_stuck (g : Dataflow) (a b : Nat) (hb : b ∈ g.outputs a)
    (hmulti : 2 ≤ (g.dependentConsumers b a).length) :
    ∀ st, matchAndRewrite false g st a = none := by
  intro st
  unfold matchAndRewrite
  split
  · rfl
  · have hv : hasViolation g a b = true := by
      unfold hasViolation
      have : 1 < (g.dependentConsumers b a).length := by omega
      simp [this]
    rw [outputLoop_violation g st a (g.outputs a) 0 ⟨b, hb, hv⟩]

/-- C8: a node that has a level is rejected by the scheduling rule, and it holds the
same level after any number of further rounds and after the whole pass. -/
theorem level_write_once (ig : Bool) (g : Dataflow) (s : FuncState) (n l : Nat)
    (h : s.level n = some l) :
    matchAndRewrite ig g s.level n = none ∧
      (∀ k, (round ig g)^[k] s.level n = some l) ∧
      (∀ k, (runOnOperation ig g k s).level n = some l) := by
  refine ⟨matchAndRewrite_of_leveled ig g s.level n (by simp [h]), ?_, ?_⟩
  · intro k; exact rounds_keeps ig g k s.level n l h
  · intro k
    have := driver_keeps ig g k s.level n l h
    cases ig <;> simpa [runOnOperation] using this

/-- C8, witness: in the chain, node `B` preset to level `7` keeps it. -/
theorem level_write_once_witness :
    matchAndRewrite false chain (Function.update emptyState.level 1 (some 7)) 1 = none ∧
      (∀ k, (round false chain)^[k] (Function.update emptyState.level 1 (some 7)) 1 = some 7) ∧
      (∀ k, (runOnOperation false chain k
        { level := Function.update emptyState.level 1 (some 7),
          isLegal := emptyState.isLegal }).level 1 = some 7) :=
  level_write_once false chain
    { level := Function.update emptyState.level 1 (some 7), isLegal := emptyState.isLegal }
    1 7 (by decide)

/-- C9: with `ignoreViolations = false`, an unscheduled node `a` that has an output buffer
with two or more consumers has no level after any number of rounds nor after the pass,
and the pass leaves the legal attribute of every region containing `a` as it was. -/
theorem multi_consumer_never_scheduled (g : Dataflow) (s : FuncState) (a b : Nat)
    (hinit : s.level a = none) (hb : b ∈ g.outputs a)
    (hmulti : 2 ≤ (g.dependentConsumers b a).length) :
    (∀ k, (round false g)^[k] s.level a = none) ∧
      (∀ k, (runOnOperation false g k s).level a = none) ∧
      (∀ k r, a ∈ g.scheduleOps r → (runOnOperation false g k s).isLegal r = s.isLegal r) := by
  have hstuck := multi_consumer_stuck g a b hb hmulti
  have hdrv : ∀ k, applyPatternsGreedily false g k s.level a = none :=
    fun k => driver_stuck false g a hstuck k s.level hinit
  refine ⟨fun k => rounds_stuck false g a hstuck k s.level hinit, ?_, ?_⟩
  · intro k; simpa [runOnOperation] using hdrv k
  · intro k r hr
    have hnot : allLeveled g (applyPatternsGreedily false g k s.level) r = false := by
      unfold allLeveled
      rw [List.all_eq_false]
      exact ⟨a, hr, by simp [hdrv k]⟩
    simp [runOnOperation, markLegal_apply, hnot]

/-- C9, witness: `buf1` of `A` feeds both `B` and `D`; `A` is never scheduled and the
region stays not legal. -/
theorem multi_consumer_never_scheduled_witness :
    (∀ k, (round false fanout)^[k] emptyState.level 0 = none) ∧
      (∀ k, (runOnOperation false fanout k emptyState).level 0 = none) ∧
      (∀ k r, 0 ∈ fanout.scheduleOps r →
        (runOnOperation false fanout k emptyState).isLegal r = emptyState.isLegal r) :=
  multi_consumer_never_scheduled fanout emptyState 0 1 (by decide) (by decide) (by decide)

/-- C10 (as amended): after the pass has run with `ignoreViolations = false`, the legal
attribute of a schedule region is present exactly when it was present before the pass or
every node of the region has a level. -/
theorem legal_iff_preset_or_leveled (g : Dataflow) (s : FuncState) (k r : Nat)
    (hr : r ∈ g.schedules) :
    (runOnOperation false g k s).isLegal r = true ↔
      (s.isLegal r = true ∨
        ∀ n ∈ g.scheduleOps r, ((runOnOperation false g k s).level n).isSome = true) := by
  simp [runOnOperation, markLegal_apply, hr, allLeveled, List.all_eq_true]

/-- C10, witness: the chain, started with nothing set, ends legal with all nodes leveled. -/
theorem legal_iff_preset_or_leveled_witness :
    (runOnOperation false chain 3 emptyState).isLegal 0 = true ↔
      (emptyState.isLegal 0 = true ∨
        ∀ n ∈ chain.scheduleOps 0,
          ((runOnOperation false chain 3 emptyState).level n).isSome = true) :=
  legal_iff_preset_or_leveled chain emptyState 3 0 (by decide)

/-- C10, counterexample: in the fan-out graph started with the legal attribute already
present, the region is legal after the pass although node `A` has no level. -/
theorem legal_without_levels :
    (runOnOperation false fanout 3 presetLegal).isLegal 0 = true ∧
      0 ∈ fanout.scheduleOps 0 ∧
      (runOnOperation false fanout 3 presetLegal).level 0 = none := by
  refine ⟨by decide, by decide, by decide⟩

/-! ## Lemmas on running maxima -/

theorem foldl_max_init_le (l : List Nat) : ∀ (m : Nat), m ≤ l.foldl max m := by
  induction l with
  | nil => intro m; exact Nat.le_refl m
  | cons a rest ih => intro m; exact le_trans (le_max_left m a) (ih (max m a))

theorem le_foldl_max_of_mem (l : List Nat) :
    ∀ (m x : Nat), x ∈ l → x ≤ l.foldl max m := by
  induction l with
  | nil => intro m x hx; exact absurd hx (List.not_mem_nil x)
  | cons a rest ih =>
    intro m x hx
    rcases List.mem_cons.mp hx with rfl | hx
    · exact le_trans (le_max_right m x) (foldl_max_init_le rest (max m x))
    · exact ih (max m a) x hx

theorem foldl_max_map_mod (l : List Nat) (k : Nat) (h : ∀ x ∈ l, x < k) :
    ∀ (m : Nat), (l.map (fun x => x % k)).foldl max m = l.foldl max m := by
  have hmap : l.map (fun x => x % k) = l := by
    conv => rhs; rw [← List.map_id l]
    apply List.map_congr_left
    intro x hx
    exact Nat.mod_eq_of_lt (h x hx)
  intro m
  rw [hmap]

theorem foldl_max_zero (l : List Nat) (h : ∀ x ∈ l, x = 0) : l.foldl max 0 = 0 := by
  induction l with
  | nil => rfl
  | cons a rest ih =>
    have ha : a = 0 := h a (List.mem_cons_self _ _)
    subst ha
    simpa using ih (fun x hx => h x (List.mem_cons_of_mem _ hx))

/-! ## The distance loops compute a maximum over index pairs -/

theorem innerLoop_eq (foldDiff : FoldDiff) (xi : AffineExpr) :
    ∀ (rest : List AffineExpr) (m : Nat),
      innerLoop foldDiff xi rest m =
        (((rest.map (fun xj => (xi, xj))).filterMap
          (fun p => (foldDiff p.2 p.1).map Int.natAbs)).map
            (fun x => x % uintModulus)).foldl max m := by
  intro rest
  induction rest with
  | nil => intro m; rfl
  | cons xj rest ih =>
    intro m
    unfold innerLoop
    cases hf : foldDiff xj xi with
    | none => simp [ih, List.filterMap_cons, hf]
    | some c => simp [ih, List.filterMap_cons, hf]

theorem outerLoop_eq (foldDiff : FoldDiff) :
    ∀ (indices : List AffineExpr) (m : Nat),
      outerLoop foldDiff indices m =
        ((foldedDiffs foldDiff indices).map (fun x => x % uintModulus)).foldl max m := by
  intro indices
  induction indices with
  | nil => intro m; rfl
  | cons xi rest ih =>
    intro m
    unfold outerLoop
    rw [ih, innerLoop_eq]
    simp [foldedDiffs, indexPairs, List.filterMap_append, List.foldl_append]

theorem maxDistance_eq_spec (foldDiff : FoldDiff) (indices : List AffineExpr)
    (h : specMaxDiff foldDiff indices < 4294967295) :
    maxDistance foldDiff indices = specMaxDiff foldDiff indices + 1 := by
  unfold maxDistance
  rw [outerLoop_eq, foldl_max_map_mod]
  · apply Nat.mod_eq_of_lt
    unfold specMaxDiff at h
    unfold uintModulus
    omega
  · intro x hx
    have := le_foldl_max_of_mem (foldedDiffs foldDiff indices) 0 x hx
    unfold specMaxDiff at h
    unfold uintModulus
    omega

theorem maxDistance_eq_one (foldDiff : FoldDiff) (indices : List AffineExpr)
    (h : ∀ p ∈ indexPairs indices, ∀ c, foldDiff p.2 p.1 = some c → c = 0) :
    maxDistance foldDiff indices = 1 := by
  unfold maxDistance
  rw [outerLoop_eq, foldl_max_zero]
  · rfl
  · intro x hx
    rw [List.mem_map] at hx
    obtain ⟨y, hy, rfl⟩ := hx
    unfold foldedDiffs at hy
    rw [List.mem_filterMap] at hy
    obtain ⟨p, hp, hpy⟩ := hy
    cases hf : foldDiff p.2 p.1 with
    | none => rw [hf] at hpy; exact absurd hpy (by simp)
    | some c =>
      rw [hf] at hpy
      have hc := h p hp c hf
      subst hc
      have : y = 0 := by simpa using hpy.symm
      subst this
      rfl

/-! ## Claims on the partition selector -/

/-- C3: for a dimension with `N` unique index expressions (`N` below `2 ^ 32`, the range
of the container's size) and `distance = maxDiff + 1`, if `distance != 1` and
`N >= distance` the selector emits the partition expression `d mod distance` and the
address expression `d floordiv distance`. -/
theorem cyclic_mode (foldDiff : FoldDiff) (size : Int) (d : Nat) (indices : List AffineExpr)
    (hN : indices.length < 4294967296)
    (hne : specMaxDiff foldDiff indices + 1 ≠ 1)
    (hge : specMaxDiff foldDiff indices + 1 ≤ indices.length) :
    partitionDim foldDiff size d indices =
      (AffineExpr.mod (AffineExpr.dim d)
          (AffineExpr.const ((specMaxDiff foldDiff indices + 1 : Nat) : Int)),
        AffineExpr.floorDiv (AffineExpr.dim d)
          (AffineExpr.const ((specMaxDiff foldDiff indices + 1 : Nat) : Int))) := by
  have hM : specMaxDiff foldDiff indices < 4294967295 := by omega
  have hd := maxDistance_eq_spec foldDiff indices hM
  unfold partitionDim
  rw [hd]
  simp only [hne, if_false, hge, if_true]

/-- C3, witness: shape `[8]`, indices `{i, i+1, i+2}` give `N = 3`, `maxDiff = 2`,
partition `i mod 3` and address `i floordiv 3`. -/
theorem cyclic_mode_witness :
    collectIndices 0 windowAccesses [] = some windowIndices ∧
      windowIndices.length = 3 ∧ specMaxDiff offsetFold windowIndices = 2 ∧
      partitionDim offsetFold 8 0 windowIndices =
        (AffineExpr.mod (AffineExpr.dim 0) (AffineExpr.const 3),
          AffineExpr.floorDiv (AffineExpr.dim 0) (AffineExpr.const 3)) :=
  ⟨by decide, by decide, by decide,
    cyclic_mode offsetFold 8 0 windowIndices (by decide) (by decide) (by decide)⟩

/-- C4, evaluation at the failing input: for the indices `{0, 2 ^ 32}` on a dimension of
size `2 ^ 33` we have `N = 2`, `maxDiff = 2 ^ 32`, so `distance != 1` and `N < distance`,
and the selector emits the constant `0` and the unchanged dimension instead of the block
expressions `d floordiv 2 ^ 32` and `d mod 2 ^ 32`. -/
theorem block_mode_lost_by_truncation :
    collectIndices 0 farAccesses [] = some farIndices ∧
      farIndices.length = 2 ∧ specMaxDiff offsetFold farIndices = 4294967296 ∧
      maxDistance offsetFold farIndices = 1 ∧
      partitionDim offsetFold 8589934592 0 farIndices =
        (AffineExpr.const 0, AffineExpr.dim 0) ∧
      partitionDim offsetFold 8589934592 0 farIndices ≠
        (AffineExpr.floorDiv (AffineExpr.dim 0) (AffineExpr.const 4294967296),
          AffineExpr.mod (AffineExpr.dim 0) (AffineExpr.const 4294967296)) := by
  refine ⟨by decide, by decide, by decide, by decide, by decide, by decide⟩

theorem blockFactor_is_ceil (size : Int) (n : Nat) (hs : 0 ≤ size) (hn1 : 1 ≤ n)
    (hn : n < 4294967296) :
    (blockFactor size n - 1) * n < size ∧ size ≤ blockFactor size n * n := by
  have hmod : n % uintModulus = n := Nat.mod_eq_of_lt (by unfold uintModulus; omega)
  have hnpos : (0 : Int) < (n : Int) := by exact_mod_cast hn1
  unfold blockFactor
  rw [hmod, Int.tdiv_eq_ediv (by omega) (by omega)]
  have h1 := Int.ediv_add_emod (size + (n : Int) - 1) (n : Int)
  have h2 := Int.emod_nonneg (size + (n : Int) - 1) (ne_of_gt hnpos)
  have h3 := Int.emod_lt_of_pos (size + (n : Int) - 1) hnpos
  constructor
  · nlinarith
  · nlinarith

/-- Away from the truncation the block rule of C4 holds: when `maxDiff` is below
`2 ^ 32 - 1`, `distance != 1` and `N < distance`, the selector emits
`d floordiv blockSize` and `d mod blockSize` with `blockSize` the block factor for
`factor = N`. -/
theorem block_mode_small_diff (foldDiff : FoldDiff) (size : Int) (d : Nat)
    (indices : List AffineExpr) (hM : specMaxDiff foldDiff indices < 4294967295)
    (hne : specMaxDiff foldDiff indices + 1 ≠ 1)
    (hlt : indices.length < specMaxDiff foldDiff indices + 1) :
    partitionDim foldDiff size d indices =
      (AffineExpr.floorDiv (AffineExpr.dim d)
          (AffineExpr.const (blockFactor size indices.length)),
        AffineExpr.mod (AffineExpr.dim d)
          (AffineExpr.const (blockFactor size indices.length))) := by
  have hd := maxDistance_eq_spec foldDiff indices hM
  unfold partitionDim
  rw [hd]
  have hnl : ¬ specMaxDiff foldDiff indices + 1 ≤ indices.length := by omega
  simp only [hne, if_false, hnl]

theorem block_mode_small_diff_example :
    collectIndices 0 sparseAccesses [] = some sparseIndices ∧
      specMaxDiff offsetFold sparseIndices = 4 ∧ blockFactor 8 sparseIndices.length = 4 ∧
      partitionDim offsetFold 8 0 sparseIndices =
        (AffineExpr.floorDiv (AffineExpr.dim 0) (AffineExpr.const 4),
          AffineExpr.mod (AffineExpr.dim 0) (AffineExpr.const 4)) := by
  refine ⟨by decide, by decide, by decide, by decide⟩

/-! ## Lemmas on the collection of unique indices -/

theorem collectIndices_some (d : Nat) :
    ∀ (accesses : List AccessOp) (acc : List AffineExpr),
      (∀ a ∈ accesses, d < a.length) → ∃ r, collectIndices d accesses acc = some r := by
  intro accesses
  induction accesses with
  | nil => intro acc _; exact ⟨acc, rfl⟩
  | cons a rest ih =>
    intro acc h
    have hrest : ∀ b ∈ rest, d < b.length := fun b hb => h b (List.mem_cons_of_mem _ hb)
    have ha : d < a.length := h a (List.mem_cons_self _ _)
    unfold collectIndices
    rw [List.get?_eq_get ha]
    simp only
    split
    · exact ih acc hrest
    · exact ih _ hrest

theorem collectIndices_mem (d : Nat) :
    ∀ (accesses : List AccessOp) (acc r : List AffineExpr),
      collectIndices d accesses acc = some r →
        ∀ x ∈ r, x ∈ acc ∨ ∃ a ∈ accesses, a.get? d = some x := by
  intro accesses
  induction accesses with
  | nil =>
    intro acc r h x hx
    simp only [collectIndices, Option.some.injEq] at h
    subst h
    exact Or.inl hx
  | cons a rest ih =>
    intro acc r h x hx
    unfold collectIndices at h
    cases hg : a.get? d with
    | none => rw [hg] at h; exact absurd h (by simp)
    | some index =>
      rw [hg] at h
      simp only at h
      split at h
      · rcases ih acc r h x hx with h1 | ⟨b, hb, hbx⟩
        · exact Or.inl h1
        · exact Or.inr ⟨b, List.mem_cons_of_mem _ hb, hbx⟩
      · rcases ih _ r h x hx with h1 | ⟨b, hb, hbx⟩
        · rcases List.mem_append.mp h1 with h2 | h2
          · exact Or.inl h2
          · have : x = index := by simpa using h2
            subst this
            exact Or.inr ⟨a, List.mem_cons_self _ _, hg⟩
        · exact Or.inr ⟨b, List.mem_cons_of_mem _ hb, hbx⟩

theorem collectIndices_nodup (d : Nat) :
    ∀ (accesses : List AccessOp) (acc r : List AffineExpr),
      acc.Nodup → collectIndices d accesses acc = some r → r.Nodup := by
  intro accesses
  induction accesses with
  | nil =>
    intro acc r hacc h
    simp only [collectIndices, Option.some.injEq] at h
    subst h
    exact hacc
  | cons a rest ih =>
    intro acc r hacc h
    unfold collectIndices at h
    cases hg : a.get? d with
    | none => rw [hg] at h; exact absurd h (by simp)
    | some index =>
      rw [hg] at h
      simp only at h
      split at h
      · exact ih acc r hacc h
      · rename_i hni
        apply ih _ r _ h
        rw [List.nodup_append]
        refine ⟨hacc, List.nodup_singleton _, ?_⟩
        intro y hy hy1
        have : y = index := by simpa using hy1
        subst this
        exact hni hy

theorem indexPairs_mem (l : List AffineExpr) (hl : l.Nodup) :
    ∀ p ∈ indexPairs l, p.1 ∈ l ∧ p.2 ∈ l ∧ p.1 ≠ p.2 := by
  induction l with
  | nil => intro p hp; exact absurd hp (List.not_mem_nil p)
  | cons x rest ih =>
    intro p hp
    have hx : x ∉ rest := (List.nodup_cons.mp hl).1
    unfold indexPairs at hp
    rcases List.mem_append.mp hp with h | h
    · rw [List.mem_map] at h
      obtain ⟨y, hy, rfl⟩ := h
      refine ⟨List.mem_cons_self _ _, List.mem_cons_of_mem _ hy, ?_⟩
      intro e
      have e2 : x = y := e
      rw [e2] at hx
      exact hx hy
    · obtain ⟨h1, h2, h3⟩ := ih (List.nodup_cons.mp hl).2 p h
      exact ⟨List.mem_cons_of_mem _ h1, List.mem_cons_of_mem _ h2, h3⟩

/-- C5: for a dimension `d` that every access site has, if all index expressions at `d`
are equal, or more generally if no two different index expressions at `d` have a
difference that folds to a non-zero constant, the unique indices are collected and the
selector emits the partition expression `0` and the address expression `d`. -/
theorem none_mode (foldDiff : FoldDiff) (size : Int) (d : Nat) (accesses : List AccessOp)
    (hwf : ∀ a ∈ accesses, d < a.length)
    (h : (∀ a ∈ accesses, ∀ b ∈ accesses, a.get? d = b.get? d) ∨
      (∀ a ∈ accesses, ∀ b ∈ accesses, ∀ x y c, a.get? d = some x → b.get? d = some y →
        x ≠ y → foldDiff y x = some c → c = 0)) :
    ∃ indices, collectIndices d accesses [] = some indices ∧
      partitionDim foldDiff size d indices = (AffineExpr.const 0, AffineExpr.dim d) := by
  obtain ⟨indices, hcol⟩ := collectIndices_some d accesses [] hwf
  refine ⟨indices, hcol, ?_⟩
  have hnd := collectIndices_nodup d accesses [] indices List.nodup_nil hcol
  have hmem := collectIndices_mem d accesses [] indices hcol
  have hone : maxDistance foldDiff indices = 1 := by
    apply maxDistance_eq_one
    intro p hp c hc
    obtain ⟨h1, h2, h3⟩ := indexPairs_mem indices hnd p hp
    rcases hmem p.1 h1 with hf | ⟨a, ha, hax⟩
    · exact absurd hf (List.not_mem_nil _)
    rcases hmem p.2 h2 with hf | ⟨b, hb, hby⟩
    · exact absurd hf (List.not_mem_nil _)
    rcases h with h | h
    · have := h a ha b hb
      rw [hax, hby] at this
      exact absurd (Option.some.inj this) h3
    · exact h a ha b hb p.1 p.2 c hax hby h3 hc
  unfold partitionDim
  simp only [hone, if_true]

/-- C5, witness: three access sites that all use the index `i`. -/
theorem none_mode_witness :
    ∃ indices,
      collectIndices 0 [[AffineExpr.dim 0], [AffineExpr.dim 0], [AffineExpr.dim 0]] [] =
        some indices ∧
      partitionDim offsetFold 8 0 indices = (AffineExpr.const 0, AffineExpr.dim 0) :=
  none_mode offsetFold 8 0 [[AffineExpr.dim 0], [AffineExpr.dim 0], [AffineExpr.dim 0]]
    (by decide) (Or.inl (by decide))

/-! ## The layout built by the dimension loop -/

theorem dimLoop_spec (foldDiff : FoldDiff) (accesses : List AccessOp) :
    ∀ (shape : List Int) (dim : Nat) (ps as : List AffineExpr),
      (∀ a ∈ accesses, dim + shape.length ≤ a.length) →
      ∃ ps1 as1, dimLoop foldDiff accesses shape dim ps as = some (ps ++ ps1, as ++ as1) ∧
        ps1.length = shape.length ∧ as1.length = shape.length ∧
        ∀ i size, shape[i]? = some size →
          ∃ indices, collectIndices (dim + i) accesses [] = some indices ∧
            ps1[i]? = some (partitionDim foldDiff size (dim + i) indices).1 ∧
            as1[i]? = some (partitionDim foldDiff size (dim + i) indices).2 := by
  intro shape
  induction shape with
  | nil =>
    intro dim ps as _
    exact ⟨[], [], by simp [dimLoop], rfl, rfl, by simp⟩
  | cons size rest ih =>
    intro dim ps as hwf
    have hlen : ∀ a ∈ accesses, dim < a.length := by
      intro a ha
      have := hwf a ha
      simp only [List.length_cons] at this
      omega
    obtain ⟨indices, hcol⟩ := collectIndices_some dim accesses [] hlen
    have hwf1 : ∀ a ∈ accesses, dim + 1 + rest.length ≤ a.length := by
      intro a ha
      have := hwf a ha
      simp only [List.length_cons] at this
      omega
    obtain ⟨ps2, as2, hrun, hp, ha, hall⟩ :=
      ih (dim + 1) (ps ++ [(partitionDim foldDiff size dim indices).1])
        (as ++ [(partitionDim foldDiff size dim indices).2]) hwf1
    refine ⟨(partitionDim foldDiff size dim indices).1 :: ps2,
      (partitionDim foldDiff size dim indices).2 :: as2, ?_, by simp [hp], by simp [ha], ?_⟩
    · unfold dimLoop
      rw [hcol]
      simp only
      rw [hrun]
      simp
    · intro i sz hsz
      cases i with
      | zero =>
        simp only [List.getElem?_cons_zero, Option.some.injEq] at hsz
        subst hsz
        exact ⟨indices, hcol, by simp, by simp⟩
      | succ j =>
        simp only [List.getElem?_cons_succ] at hsz
        obtain ⟨ind, h1, h2, h3⟩ := hall j sz hsz
        have e : dim + 1 + j = dim + (j + 1) := by omega
        rw [e] at h1 h2 h3
        exact ⟨ind, h1, by simpa using h2, by simpa using h3⟩

theorem partitionMemRef_spec (foldDiff : FoldDiff) (ty : MemRefType) (accesses : List AccessOp)
    (hwf : ∀ a ∈ accesses, a.length = ty.shape.length) :
    ∃ t, partitionMemRef foldDiff ty accesses = some t ∧
      t.shape = ty.shape ∧ t.elementType = ty.elementType ∧
      t.memorySpace = ty.memorySpace ∧ t.layout.numDims = ty.shape.length ∧
      t.layout.results.length = 2 * ty.shape.length ∧
      ∀ d size, ty.shape[d]? = some size →
        ∃ indices, collectIndices d accesses [] = some indices ∧
          t.layout.results[d]? = some (partitionDim foldDiff size d indices).1 ∧
          t.layout.results[ty.shape.length + d]? =
            some (partitionDim foldDiff size d indices).2 := by
  obtain ⟨ps1, as1, hrun, hp, ha, hall⟩ :=
    dimLoop_spec foldDiff accesses ty.shape 0 [] []
      (fun a h => by rw [hwf a h]; omega)
  simp only [List.nil_append] at hrun
  refine ⟨{ shape := ty.shape, elementType := ty.elementType,
             layout := { numDims := ty.shape.length, numSymbols := 0, results := ps1 ++ as1 },
             memorySpace := ty.memorySpace },
    by unfold partitionMemRef; rw [hrun], rfl, rfl, rfl, rfl, ?_, ?_⟩
  · simp only [List.length_append, hp, ha]; omega
  · intro d size hd
    obtain ⟨indices, h1, h2, h3⟩ := hall d size hd
    rw [Nat.zero_add] at h1 h2 h3
    have hdlt : d < ty.shape.length := by
      rcases Nat.lt_or_ge d ty.shape.length with h | h
      · exact h
      · rw [List.getElem?_eq_none h] at hd; exact absurd hd (by simp)
    refine ⟨indices, h1, ?_, ?_⟩
    · simp only
      rw [List.getElem?_append_left (by omega)]
      exact h2
    · simp only
      rw [List.getElem?_append_right (by omega)]
      have e : ty.shape.length + d - ps1.length = d := by omega
      rw [e]
      exact h3

theorem applyArrayPartition_spec (foldDiff : FoldDiff) :
    ∀ (map : List (Nat × List AccessOp)) (types : Nat → MemRefType),
      (map.map Prod.fst).Nodup →
      (∀ pr ∈ map, ∃ t, partitionMemRef foldDiff (types pr.1) pr.2 = some t) →
      ∃ types1, applyArrayPartition foldDiff map types = some types1 ∧
        (∀ pr ∈ map, partitionMemRef foldDiff (types pr.1) pr.2 = some (types1 pr.1)) ∧
        (∀ m, m ∉ map.map Prod.fst → types1 m = types m) := by
  intro map
  induction map with
  | nil => intro types _ _; exact ⟨types, rfl, by simp, by simp⟩
  | cons hd rest ih =>
    intro types hnd hex
    obtain ⟨m, acc⟩ := hd
    simp only [List.map_cons, List.nodup_cons] at hnd
    obtain ⟨t, ht⟩ := hex (m, acc) (List.mem_cons_self _ _)
    have hother : ∀ pr ∈ rest, pr.1 ≠ m := by
      intro pr hpr e
      exact hnd.1 (by rw [← e]; exact List.mem_map_of_mem Prod.fst hpr)
    have hex1 : ∀ pr ∈ rest,
        ∃ t1, partitionMemRef foldDiff (Function.update types m t pr.1) pr.2 = some t1 := by
      intro pr hpr
      rw [Function.update_noteq (hother pr hpr)]
      exact hex pr (List.mem_cons_of_mem _ hpr)
    obtain ⟨types1, hrun, hin, hout⟩ := ih (Function.update types m t) hnd.2 hex1
    refine ⟨types1, ?_, ?_, ?_⟩
    · unfold applyArrayPartition
      simp only at ht
      rw [ht]
      exact hrun
    · intro pr hpr
      rcases List.mem_cons.mp hpr with rfl | hpr
      · simp only
        rw [hout m hnd.1, Function.update_same]
        exact ht
      · have := hin pr hpr
        rw [Function.update_noteq (hother pr hpr)] at this
        exact this
    · intro k hk
      simp only [List.map_cons, List.mem_cons, not_or] at hk
      rw [hout k hk.2, Function.update_noteq hk.1]

/-- C6: for every array of the access map (keys distinct, every access site carrying one
index per dimension), `applyArrayPartition` installs a type with the same shape,
element type and memory space whose layout has `2 * rank` results: result `d` is the
partition expression of dimension `d` and result `rank + d` is its address expression. -/
theorem layout_has_two_rank_results (foldDiff : FoldDiff)
    (map : List (Nat × List AccessOp)) (types : Nat → MemRefType)
    (hkeys : (map.map Prod.fst).Nodup)
    (hwf : ∀ pr ∈ map, ∀ a ∈ pr.2, a.length = (types pr.1).shape.length) :
    ∃ types1, applyArrayPartition foldDiff map types = some types1 ∧
      ∀ pr ∈ map,
        (types1 pr.1).shape = (types pr.1).shape ∧
        (types1 pr.1).elementType = (types pr.1).elementType ∧
        (types1 pr.1).memorySpace = (types pr.1).memorySpace ∧
        (types1 pr.1).layout.numDims = (types pr.1).shape.length ∧
        (types1 pr.1).layout.results.length = 2 * (types pr.1).shape.length ∧
        ∀ d size, (types pr.1).shape[d]? = some size →
          ∃ indices, collectIndices d pr.2 [] = some indices ∧
            (types1 pr.1).layout.results[d]? =
              some (partitionDim foldDiff size d indices).1 ∧
            (types1 pr.1).layout.results[(types pr.1).shape.length + d]? =
              some (partitionDim foldDiff size d indices).2 := by
  have hex : ∀ pr ∈ map, ∃ t, partitionMemRef foldDiff (types pr.1) pr.2 = some t := by
    intro pr hpr
    obtain ⟨t, ht, _⟩ := partitionMemRef_spec foldDiff (types pr.1) pr.2 (hwf pr hpr)
    exact ⟨t, ht⟩
  obtain ⟨types1, hrun, hin, _⟩ := applyArrayPartition_spec foldDiff map types hkeys hex
  refine ⟨types1, hrun, ?_⟩
  intro pr hpr
  obtain ⟨t, ht, hrest⟩ := partitionMemRef_spec foldDiff (types pr.1) pr.2 (hwf pr hpr)
  have e : types1 pr.1 = t := by
    have := hin pr hpr
    rw [ht] at this
    exact (Option.some.inj this).symm
  rw [e]
  exact hrest

/-- C6, witness: the array of shape `[8]` accessed at `{i, i+1, i+2}` gets a layout with
two results. -/
theorem layout_has_two_rank_results_witness :
    ∃ types1, applyArrayPartition offsetFold [(0, windowAccesses)] (fun _ => vectorType 8) =
        some types1 ∧
      ∀ pr ∈ [((0 : Nat), windowAccesses)],
        (types1 pr.1).shape = (vectorType 8).shape ∧
        (types1 pr.1).elementType = (vectorType 8).elementType ∧
        (types1 pr.1).memorySpace = (vectorType 8).memorySpace ∧
        (types1 pr.1).layout.numDims = (vectorType 8).shape.length ∧
        (types1 pr.1).layout.results.length = 2 * (vectorType 8).shape.length ∧
        ∀ d size, (vectorType 8).shape[d]? = some size →
          ∃ indices, collectIndices d pr.2 [] = some indices ∧
            (types1 pr.1).layout.results[d]? =
              some (partitionDim offsetFold size d indices).1 ∧
            (types1 pr.1).layout.results[(vectorType 8).shape.length + d]? =
              some (partitionDim offsetFold size d indices).2 :=
  layout_has_two_rank_results offsetFold [(0, windowAccesses)] (fun _ => vectorType 8)
    (by decide) (by decide)

theorem maxDistance_nil (foldDiff : FoldDiff) : maxDistance foldDiff [] = 1 := rfl

theorem maxDistance_lt (foldDiff : FoldDiff) (indices : List AffineExpr) :
    maxDistance foldDiff indices < 4294967296 := by
  unfold maxDistance uintModulus
  exact Nat.mod_lt _ (by norm_num)

/-! ## Claims on violations and on the 32-bit distance -/

theorem hasViolation_iff (g : Dataflow) (n b : Nat) :
    hasViolation g n b = true ↔
      (1 < (g.dependentConsumers b n).length ∨ 1 < (g.producers b).length) := by
  simp [hasViolation]

/-- C11 (as amended): with `ignoreViolations = false` and a node `n` without a level,
the scheduling rule defers `n` exactly when some output buffer of `n` has more than one
consumer or more than one producer, or some consumer of an output buffer has no level.
Hence a buffer with more than one consumer or producer always defers the node, and
buffers with no consumer or no producer never do: a node all of whose output buffers
have at most one consumer and at most one producer and whose consumers are leveled is
assigned a level. -/
theorem violation_defers (g : Dataflow) (st : Levels) (n : Nat) (hn : st n = none) :
    (matchAndRewrite false g st n = none ↔
        ((∃ b ∈ g.outputs n,
            1 < (g.dependentConsumers b n).length ∨ 1 < (g.producers b).length) ∨
          ∃ b ∈ g.outputs n, ∃ c ∈ g.dependentConsumers b n, st c = none)) ∧
      ((∃ b ∈ g.outputs n,
          1 < (g.dependentConsumers b n).length ∨ 1 < (g.producers b).length) →
        matchAndRewrite false g st n = none) ∧
      ((∀ b ∈ g.outputs n,
          (g.dependentConsumers b n).length ≤ 1 ∧ (g.producers b).length ≤ 1) →
        (∀ b ∈ g.outputs n, ∀ c ∈ g.dependentConsumers b n, (st c).isSome = true) →
        (matchAndRewrite false g st n).isSome = true) := by
  have hviol : (∃ b ∈ g.outputs n,
      1 < (g.dependentConsumers b n).length ∨ 1 < (g.producers b).length) →
      matchAndRewrite false g st n = none := by
    rintro ⟨b, hb, hv⟩
    unfold matchAndRewrite
    simp only [hn, Option.isSome_none, Bool.false_eq_true, if_false]
    rw [outputLoop_violation g st n (g.outputs n) 0
      ⟨b, hb, (hasViolation_iff g n b).mpr hv⟩]
  have hclean : (¬ ∃ b ∈ g.outputs n,
      1 < (g.dependentConsumers b n).length ∨ 1 < (g.producers b).length) →
      ∀ b ∈ g.outputs n, (!false && hasViolation g n b) = false := by
    intro hno b hb
    cases hv : hasViolation g n b with
    | false => rfl
    | true => exact absurd ⟨b, hb, (hasViolation_iff g n b).mp hv⟩ hno
  have hiff : matchAndRewrite false g st n = none ↔
      ((∃ b ∈ g.outputs n,
          1 < (g.dependentConsumers b n).length ∨ 1 < (g.producers b).length) ∨
        ∃ b ∈ g.outputs n, ∃ c ∈ g.dependentConsumers b n, st c = none) := by
    by_cases hex : ∃ b ∈ g.outputs n,
        1 < (g.dependentConsumers b n).length ∨ 1 < (g.producers b).length
    · exact ⟨fun _ => Or.inl hex, fun _ => hviol hex⟩
    · rw [matchAndRewrite_none_iff false g st n hn (hclean hex)]
      constructor
      · intro h; exact Or.inr h
      · rintro (h | h)
        · exact absurd h hex
        · exact h
  refine ⟨hiff, hviol, ?_⟩
  intro hwf hall
  cases hm : matchAndRewrite false g st n with
  | some st1 => rfl
  | none =>
    rcases hiff.mp hm with ⟨b, hb, hv⟩ | ⟨b, hb, c, hc, hcn⟩
    · have := hwf b hb
      omega
    · have := hall b hb c hc
      rw [hcn] at this
      exact absurd this (by simp)

/-- C11, witness: in the fan-out graph and in the graph with two producers every
consumer already has a level, so the node is deferred by the violation test alone:
with `ignoreViolations = true` the rule assigns it level `1`. -/
theorem violation_defers_witness :
    matchAndRewrite false fanout othersLeveled 0 = none ∧
      (matchAndRewrite true fanout othersLeveled 0).map (fun st1 => st1 0) =
        some (some 1) ∧
      matchAndRewrite false twoProducers othersLeveled 0 = none ∧
      (matchAndRewrite true twoProducers othersLeveled 0).map (fun st1 => st1 0) =
        some (some 1) :=
  ⟨(violation_defers fanout othersLeveled 0 (by decide)).2.1
      ⟨1, by decide, Or.inl (by decide)⟩,
    by decide,
    (violation_defers twoProducers othersLeveled 0 (by decide)).2.1
      ⟨1, by decide, Or.inr (by decide)⟩,
    by decide⟩

/-- C11, counterexample: with `ignoreViolations = false`, an unscheduled node whose only
output buffer has one producer and no consumer is assigned level `0`, and an
unscheduled node whose only output buffer has no producer and one leveled consumer is
assigned level `1`. -/
theorem zero_consumer_or_producer_scheduled :
    (emptyState.level 0 = none ∧ deadEnd.outputs 0 = [1] ∧
        (deadEnd.dependentConsumers 1 0).length = 0 ∧ (deadEnd.producers 1).length = 1 ∧
        (matchAndRewrite false deadEnd emptyState.level 0).map (fun st1 => st1 0) =
          some (some 0)) ∧
      (othersLeveled 0 = none ∧ orphan.outputs 0 = [1] ∧
        (orphan.dependentConsumers 1 0).length = 1 ∧ (orphan.producers 1).length = 0 ∧
        (matchAndRewrite false orphan othersLeveled 0).map (fun st1 => st1 0) =
          some (some 1)) := by
  refine ⟨⟨by decide, by decide, by decide, by decide, by decide⟩,
    ⟨by decide, by decide, by decide, by decide, by decide⟩⟩

/-- C15, evaluation at the failing input: for the indices `{0, 2 ^ 32 - 1}` the only
difference folds to `2 ^ 32 - 1`, so `maxDiff + 1 = 2 ^ 32`, while the distance the
decision rule uses is `0`. -/
theorem distance_wraps_to_zero :
    specMaxDiff offsetFold wrapIndices = 4294967295 ∧
      specMaxDiff offsetFold wrapIndices + 1 = 4294967296 ∧
      maxDistance offsetFold wrapIndices = 0 := by
  refine ⟨by decide, by decide, by decide⟩

/-! ## Factor bounds and bank ranges -/

theorem indexPairs_nil_of_short (l : List AffineExpr) (h : l.length ≤ 1) :
    indexPairs l = [] := by
  cases l with
  | nil => rfl
  | cons x rest =>
    cases rest with
    | nil => rfl
    | cons y r => simp at h

theorem two_le_length_of_diff (foldDiff : FoldDiff) (indices : List AffineExpr)
    (h : specMaxDiff foldDiff indices ≠ 0) : 2 ≤ indices.length := by
  by_contra hlt
  apply h
  unfold specMaxDiff foldedDiffs
  rw [indexPairs_nil_of_short indices (by omega)]
  rfl

theorem blockFactor_pos (size : Int) (n : Nat) (hs : 1 ≤ size) (hn1 : 1 ≤ n)
    (hn : n < 4294967296) : 1 ≤ blockFactor size n := by
  have hceil := blockFactor_is_ceil size n (by omega) hn1 hn
  have hpos : (0 : Int) < (n : Int) := by exact_mod_cast hn1
  by_contra hb
  have hb1 : blockFactor size n ≤ 0 := by omega
  nlinarith [hceil.2]

/-- C20: for a dimension whose `maxDiff` is below `2 ^ 32 - 1`, whenever the selector
does not emit the unpartitioned pair, either it emits the cyclic pair with factor
`f = maxDiff + 1` and `2 <= f <= N`, or it emits the block pair with `factor = N`,
`2 <= N`, and a block size that is at least `1` when the dimension size is at least
`1`; so no divisor is zero. -/
theorem factor_bounds (foldDiff : FoldDiff) (size : Int) (d : Nat)
    (indices : List AffineExpr) (hM : specMaxDiff foldDiff indices < 4294967295)
    (hmode : partitionDim foldDiff size d indices ≠ (AffineExpr.const 0, AffineExpr.dim d)) :
    (maxDistance foldDiff indices = specMaxDiff foldDiff indices + 1 ∧
        2 ≤ maxDistance foldDiff indices ∧ maxDistance foldDiff indices ≤ indices.length ∧
        partitionDim foldDiff size d indices =
          (AffineExpr.mod (AffineExpr.dim d)
              (AffineExpr.const (maxDistance foldDiff indices)),
            AffineExpr.floorDiv (AffineExpr.dim d)
              (AffineExpr.const (maxDistance foldDiff indices)))) ∨
      (indices.length < maxDistance foldDiff indices ∧
        indices.length % uintModulus = indices.length ∧ 2 ≤ indices.length ∧
        (1 ≤ size → 1 ≤ blockFactor size indices.length) ∧
        partitionDim foldDiff size d indices =
          (AffineExpr.floorDiv (AffineExpr.dim d)
              (AffineExpr.const (blockFactor size indices.length)),
            AffineExpr.mod (AffineExpr.dim d)
              (AffineExpr.const (blockFactor size indices.length)))) := by
  have hd := maxDistance_eq_spec foldDiff indices hM
  have hne : maxDistance foldDiff indices ≠ 1 := by
    intro h1
    apply hmode
    unfold partitionDim
    simp only [h1, if_true]
  have hspec : specMaxDiff foldDiff indices ≠ 0 := by
    intro h0
    apply hne
    rw [hd, h0]
  have hlen := two_le_length_of_diff foldDiff indices hspec
  by_cases hge : maxDistance foldDiff indices ≤ indices.length
  · left
    refine ⟨hd, by omega, hge, ?_⟩
    unfold partitionDim
    simp only [hne, if_false, hge, if_true]
  · right
    have hlt : indices.length < 4294967296 := by omega
    refine ⟨by omega, Nat.mod_eq_of_lt (by unfold uintModulus; omega), hlen, ?_, ?_⟩
    · intro hs
      exact blockFactor_pos size indices.length hs (by omega) hlt
    · unfold partitionDim
      simp only [hne, if_false, hge]

/-- C20, witness: shape `[8]` with indices `{0, 4}` takes the block branch with
`factor = 2` and block size `4`. -/
theorem factor_bounds_witness :
    sparseIndices.length = 2 ∧ blockFactor 8 sparseIndices.length = 4 ∧
      ((maxDistance offsetFold sparseIndices = specMaxDiff offsetFold sparseIndices + 1 ∧
        2 ≤ maxDistance offsetFold sparseIndices ∧
        maxDistance offsetFold sparseIndices ≤ sparseIndices.length ∧
        partitionDim offsetFold 8 0 sparseIndices =
          (AffineExpr.mod (AffineExpr.dim 0)
              (AffineExpr.const (maxDistance offsetFold sparseIndices)),
            AffineExpr.floorDiv (AffineExpr.dim 0)
              (AffineExpr.const (maxDistance offsetFold sparseIndices)))) ∨
      (sparseIndices.length < maxDistance offsetFold sparseIndices ∧
        sparseIndices.length % uintModulus = sparseIndices.length ∧
        2 ≤ sparseIndices.length ∧
        ((1 : Int) ≤ 8 → 1 ≤ blockFactor 8 sparseIndices.length) ∧
        partitionDim offsetFold 8 0 sparseIndices =
          (AffineExpr.floorDiv (AffineExpr.dim 0)
              (AffineExpr.const (blockFactor 8 sparseIndices.length)),
            AffineExpr.mod (AffineExpr.dim 0)
              (AffineExpr.const (blockFactor 8 sparseIndices.length))))) :=
  ⟨by decide, by decide, factor_bounds offsetFold 8 0 sparseIndices (by decide) (by decide)⟩

/-! ## Values of the emitted expressions -/

theorem eval_mod_dim (dims syms : Nat → Int) (d : Nat) (f : Int) (hf : 0 < f) :
    (AffineExpr.mod (AffineExpr.dim d) (AffineExpr.const f)).eval dims syms =
      some (dims d % f) := by
  simp [AffineExpr.eval, hf]

theorem eval_floorDiv_dim (dims syms : Nat → Int) (d : Nat) (f : Int) (hf : 0 < f) :
    (AffineExpr.floorDiv (AffineExpr.dim d) (AffineExpr.const f)).eval dims syms =
      some (dims d / f) := by
  simp [AffineExpr.eval, hf]

theorem eval_mod_dim_zero (dims syms : Nat → Int) (d : Nat) :
    (AffineExpr.mod (AffineExpr.dim d) (AffineExpr.const 0)).eval dims syms = none := by
  simp [AffineExpr.eval]

theorem eval_floorDiv_dim_zero (dims syms : Nat → Int) (d : Nat) :
    (AffineExpr.floorDiv (AffineExpr.dim d) (AffineExpr.const 0)).eval dims syms = none := by
  simp [AffineExpr.eval]

/-- C7, evaluation at the failing input: for the constant indices `{0, 2 ^ 32 - 1}` on a
dimension of size `2 ^ 33` (`N = 2`, `maxDiff = 2 ^ 32 - 1`) the 32-bit distance is `0`,
the selector takes the cyclic branch with factor `0` and emits `d mod 0` and
`d floordiv 0`; at the valid index `5` neither expression has a value, so nothing
reconstructs the index. -/
theorem round_trip_undefined_at_wrap :
    wrapIndices.length = 2 ∧ specMaxDiff offsetFold wrapIndices = 4294967295 ∧
      maxDistance offsetFold wrapIndices = 0 ∧
      partitionDim offsetFold 8589934592 0 wrapIndices =
        (AffineExpr.mod (AffineExpr.dim 0) (AffineExpr.const 0),
          AffineExpr.floorDiv (AffineExpr.dim 0) (AffineExpr.const 0)) ∧
      (partitionDim offsetFold 8589934592 0 wrapIndices).1.eval (fun _ => 5) (fun _ => 0) =
        none ∧
      (partitionDim offsetFold 8589934592 0 wrapIndices).2.eval (fun _ => 5) (fun _ => 0) =
        none := by
  have hemit : partitionDim offsetFold 8589934592 0 wrapIndices =
      (AffineExpr.mod (AffineExpr.dim 0) (AffineExpr.const 0),
        AffineExpr.floorDiv (AffineExpr.dim 0) (AffineExpr.const 0)) := by decide
  refine ⟨by decide, by decide, by decide, hemit, ?_, ?_⟩
  · rw [hemit]
    exact eval_mod_dim_zero _ _ 0
  · rw [hemit]
    exact eval_floorDiv_dim_zero _ _ 0

/-- Away from the wrap the round trip of C7 holds: for a dimension of size at least `1`
and a 32-bit distance other than `0`, the emitted expressions have values that
reconstruct the index: without partition the address is the index; in the cyclic
branch with factor `f`, `f * address + partition` is the index; in the block branch
with block size `b`, `b` is positive and `b * partition + address` is the index.  Hence
two indices with the same partition and address values are equal. -/
theorem layout_round_trip_of_nonzero_factor (foldDiff : FoldDiff) (size : Int) (d : Nat)
    (indices : List AffineExpr) (dims syms : Nat → Int) (hS : 1 ≤ size)
    (hz : maxDistance foldDiff indices ≠ 0) :
    (maxDistance foldDiff indices = 1 →
        (partitionDim foldDiff size d indices).1.eval dims syms = some 0 ∧
        (partitionDim foldDiff size d indices).2.eval dims syms = some (dims d)) ∧
      (maxDistance foldDiff indices ≠ 1 → maxDistance foldDiff indices ≤ indices.length →
        ∃ p a, (partitionDim foldDiff size d indices).1.eval dims syms = some p ∧
          (partitionDim foldDiff size d indices).2.eval dims syms = some a ∧
          (maxDistance foldDiff indices : Int) * a + p = dims d) ∧
      (maxDistance foldDiff indices ≠ 1 → indices.length < maxDistance foldDiff indices →
        0 < blockFactor size indices.length ∧
        ∃ p a, (partitionDim foldDiff size d indices).1.eval dims syms = some p ∧
          (partitionDim foldDiff size d indices).2.eval dims syms = some a ∧
          blockFactor size indices.length * p + a = dims d) ∧
      (∀ dims2 syms2 : Nat → Int,
        (partitionDim foldDiff size d indices).1.eval dims syms =
            (partitionDim foldDiff size d indices).1.eval dims2 syms2 →
        (partitionDim foldDiff size d indices).2.eval dims syms =
            (partitionDim foldDiff size d indices).2.eval dims2 syms2 →
        dims d = dims2 d) := by
  have hnone : maxDistance foldDiff indices = 1 →
      partitionDim foldDiff size d indices = (AffineExpr.const 0, AffineExpr.dim d) := by
    intro h; unfold partitionDim; simp only [h, if_true]
  have hcyc : maxDistance foldDiff indices ≠ 1 →
      maxDistance foldDiff indices ≤ indices.length →
      partitionDim foldDiff size d indices =
        (AffineExpr.mod (AffineExpr.dim d) (AffineExpr.const (maxDistance foldDiff indices)),
          AffineExpr.floorDiv (AffineExpr.dim d)
            (AffineExpr.const (maxDistance foldDiff indices))) := by
    intro h1 h2; unfold partitionDim; simp only [h1, if_false, h2, if_true]
  have hblk : maxDistance foldDiff indices ≠ 1 →
      indices.length < maxDistance foldDiff indices →
      partitionDim foldDiff size d indices =
        (AffineExpr.floorDiv (AffineExpr.dim d)
            (AffineExpr.const (blockFactor size indices.length)),
          AffineExpr.mod (AffineExpr.dim d)
            (AffineExpr.const (blockFactor size indices.length))) := by
    intro h1 h2
    have h3 : ¬ maxDistance foldDiff indices ≤ indices.length := by omega
    unfold partitionDim; simp only [h1, if_false, h3]
  have hfpos : (0 : Int) < (maxDistance foldDiff indices : Int) := by
    exact_mod_cast Nat.pos_of_ne_zero hz
  have hbpos : maxDistance foldDiff indices ≠ 1 →
      indices.length < maxDistance foldDiff indices →
      0 < blockFactor size indices.length := by
    intro h1 h2
    have hlen : 1 ≤ indices.length := by
      cases indices with
      | nil => exact absurd (maxDistance_nil foldDiff) h1
      | cons x rest => simp
    have hlt := maxDistance_lt foldDiff indices
    have := blockFactor_pos size indices.length hS hlen (by omega)
    omega
  refine ⟨?_, ?_, ?_, ?_⟩
  · intro h
    rw [hnone h]
    exact ⟨rfl, rfl⟩
  · intro h1 h2
    rw [hcyc h1 h2]
    exact ⟨_, _, eval_mod_dim dims syms d _ hfpos, eval_floorDiv_dim dims syms d _ hfpos,
      Int.ediv_add_emod _ _⟩
  · intro h1 h2
    have hb := hbpos h1 h2
    refine ⟨hb, ?_⟩
    rw [hblk h1 h2]
    exact ⟨_, _, eval_floorDiv_dim dims syms d _ hb, eval_mod_dim dims syms d _ hb,
      Int.ediv_add_emod _ _⟩
  · intro dims2 syms2 hp ha
    by_cases h1 : maxDistance foldDiff indices = 1
    · rw [hnone h1] at ha
      exact Option.some.inj ha
    · by_cases h2 : maxDistance foldDiff indices ≤ indices.length
      · rw [hcyc h1 h2] at hp ha
        simp only [eval_mod_dim _ _ d _ hfpos, eval_floorDiv_dim _ _ d _ hfpos,
          Option.some.injEq] at hp ha
        have e1 := Int.ediv_add_emod (dims d) (maxDistance foldDiff indices : Int)
        have e2 := Int.ediv_add_emod (dims2 d) (maxDistance foldDiff indices : Int)
        rw [← e1, ← e2, hp, ha]
      · have hb := hbpos h1 (by omega)
        rw [hblk h1 (by omega)] at hp ha
        simp only [eval_mod_dim _ _ d _ hb, eval_floorDiv_dim _ _ d _ hb,
          Option.some.injEq] at hp ha
        have e1 := Int.ediv_add_emod (dims d) (blockFactor size indices.length)
        have e2 := Int.ediv_add_emod (dims2 d) (blockFactor size indices.length)
        rw [← e1, ← e2, hp, ha]

/-- An instance of the round trip: shape `[8]` with indices `{0, 4}` is split in blocks
of size `4`, and at index `5` the partition value `1` and the address value `1` give
back `4 * 1 + 1`. -/
theorem layout_round_trip_block_example :
    blockFactor 8 sparseIndices.length = 4 ∧
      (partitionDim offsetFold 8 0 sparseIndices).1.eval (fun _ => 5) (fun _ => 0) =
        some 1 ∧
      (partitionDim offsetFold 8 0 sparseIndices).2.eval (fun _ => 5) (fun _ => 0) =
        some 1 ∧
      ∃ p a, (partitionDim offsetFold 8 0 sparseIndices).1.eval (fun _ => 5) (fun _ => 0) =
          some p ∧
        (partitionDim offsetFold 8 0 sparseIndices).2.eval (fun _ => 5) (fun _ => 0) =
          some a ∧
        blockFactor 8 sparseIndices.length * p + a = 5 :=
  ⟨by decide, by decide, by decide,
    ((layout_round_trip_of_nonzero_factor offsetFold 8 0 sparseIndices (fun _ => 5)
      (fun _ => 0) (by decide) (by decide)).2.2.1 (by decide) (by decide)).2⟩

/-- C17, evaluation at the failing input: for the indices `{i, i + (2 ^ 32 - 1)}` on a
dimension of size `2 ^ 33` we have `N = 2` and `maxDiff = 2 ^ 32 - 1`; the selector
emits `d mod 0` and `d floordiv 0`, and at the valid index `5` the partition expression
has no value, so no bank index in `[0, 2)` (nor in `[0, 0)`) comes out. -/
theorem bank_index_out_of_range :
    strideIndices.length = 2 ∧ specMaxDiff offsetFold strideIndices = 4294967295 ∧
      partitionDim offsetFold 8589934592 0 strideIndices =
        (AffineExpr.mod (AffineExpr.dim 0) (AffineExpr.const 0),
          AffineExpr.floorDiv (AffineExpr.dim 0) (AffineExpr.const 0)) ∧
      (partitionDim offsetFold 8589934592 0 strideIndices).1.eval (fun _ => 5) (fun _ => 0)
        = none ∧
      ¬ ∃ v, (partitionDim offsetFold 8589934592 0 strideIndices).1.eval
          (fun _ => 5) (fun _ => 0) = some v ∧ 0 ≤ v ∧ v < 2 := by
  have hemit : partitionDim offsetFold 8589934592 0 strideIndices =
      (AffineExpr.mod (AffineExpr.dim 0) (AffineExpr.const 0),
        AffineExpr.floorDiv (AffineExpr.dim 0) (AffineExpr.const 0)) := by decide
  have hnone : (partitionDim offsetFold 8589934592 0 strideIndices).1.eval
      (fun _ => 5) (fun _ => 0) = none := by
    rw [hemit]
    exact eval_mod_dim_zero _ _ 0
  refine ⟨by decide, by decide, hemit, hnone, ?_⟩
  rintro ⟨v, hv, _⟩
  rw [hnone] at hv
  exact absurd hv (by simp)

/-- Away from the truncation the ranges of C17 hold: when `maxDiff` is below
`2 ^ 32 - 1`, the dimension size is at least `1` and the index is valid, the cyclic
partition expression has a value in `[0, factor)`, and the block partition expression
has a value in `[0, N)` with the block address in `[0, blockSize)`. -/
theorem bank_index_in_range_small_diff (foldDiff : FoldDiff) (size : Int) (d : Nat)
    (indices : List AffineExpr) (dims syms : Nat → Int)
    (hM : specMaxDiff foldDiff indices < 4294967295)
    (hmode : partitionDim foldDiff size d indices ≠ (AffineExpr.const 0, AffineExpr.dim d))
    (hS : 1 ≤ size) (hi0 : 0 ≤ dims d) (hi : dims d < size) :
    (maxDistance foldDiff indices ≤ indices.length →
        ∃ p, (partitionDim foldDiff size d indices).1.eval dims syms = some p ∧
          0 ≤ p ∧ p < (maxDistance foldDiff indices : Int)) ∧
      (indices.length < maxDistance foldDiff indices →
        ∃ p a, (partitionDim foldDiff size d indices).1.eval dims syms = some p ∧
          (partitionDim foldDiff size d indices).2.eval dims syms = some a ∧
          0 ≤ p ∧ p < (indices.length : Int) ∧
          0 ≤ a ∧ a < blockFactor size indices.length) := by
  rcases factor_bounds foldDiff size d indices hM hmode with
    ⟨_, h2, hle, hemit⟩ | ⟨hlt, _, hlen, hb, hemit⟩
  · constructor
    · intro _
      have hpos : (0 : Int) < (maxDistance foldDiff indices : Int) := by
        exact_mod_cast (by omega : 0 < maxDistance foldDiff indices)
      rw [hemit]
      exact ⟨_, eval_mod_dim dims syms d _ hpos, Int.emod_nonneg _ (ne_of_gt hpos),
        Int.emod_lt_of_pos _ hpos⟩
    · intro h; omega
  · constructor
    · intro h; omega
    · intro _
      have hbpos : 0 < blockFactor size indices.length := by
        have := hb hS
        omega
      have hml := maxDistance_lt foldDiff indices
      have hceil := blockFactor_is_ceil size indices.length (by omega) (by omega) (by omega)
      rw [hemit]
      refine ⟨_, _, eval_floorDiv_dim dims syms d _ hbpos, eval_mod_dim dims syms d _ hbpos,
        Int.ediv_nonneg hi0 (le_of_lt hbpos), ?_,
        Int.emod_nonneg _ (ne_of_gt hbpos), Int.emod_lt_of_pos _ hbpos⟩
      rw [Int.ediv_lt_iff_lt_mul hbpos]
      have h1 := hceil.2
      rw [mul_comm] at h1
      exact lt_of_lt_of_le hi h1

/-! ## The pipelined loop of a nest -/

theorem getPipelineLoop_unpipelined :
    (getPipelineLoop unpipelined).bind Op.loopId = none ∧
      (partitionNest offsetFold unpipelined (fun _ => vectorType 8)).map (fun t => t 0) =
        some (vectorType 8) := by
  refine ⟨by decide, by decide⟩

/-! ## The access maps and the overwrite of the load layout by the store layout -/

theorem pushAccess_keys (memref : Nat) (op : AccessOp) :
    ∀ (map : List (Nat × List AccessOp)),
      (pushAccess memref op map).map Prod.fst =
        if memref ∈ map.map Prod.fst then map.map Prod.fst
        else map.map Prod.fst ++ [memref] := by
  intro map
  induction map with
  | nil => simp [pushAccess]
  | cons hd rest ih =>
    obtain ⟨m, ops⟩ := hd
    unfold pushAccess
    by_cases hm : m = memref
    · simp [hm]
    · have hm2 : ¬ memref = m := fun e => hm e.symm
      simp only [hm, if_false, List.map_cons, ih, List.mem_cons, hm2, false_or]
      split <;> simp

theorem pushAccess_mem (memref : Nat) (op : AccessOp) :
    ∀ (map : List (Nat × List AccessOp)) (pr : Nat × List AccessOp),
      (map.map Prod.fst).Nodup → pr ∈ pushAccess memref op map →
        (pr.1 ≠ memref ∧ pr ∈ map) ∨
        (pr.1 = memref ∧ ∃ ops, (memref, ops) ∈ map ∧ pr.2 = ops ++ [op]) ∨
        (pr = (memref, [op]) ∧ memref ∉ map.map Prod.fst) := by
  intro map
  induction map with
  | nil =>
    intro pr _ h
    simp only [pushAccess, List.mem_singleton] at h
    right; right
    exact ⟨h, by simp⟩
  | cons hd rest ih =>
    intro pr hnd h
    obtain ⟨m, ops⟩ := hd
    simp only [List.map_cons, List.nodup_cons] at hnd
    unfold pushAccess at h
    by_cases hm : m = memref
    · subst hm
      simp only [if_true, List.mem_cons] at h
      rcases h with h | h
      · right; left
        subst h
        exact ⟨rfl, ops, List.mem_cons_self _ _, rfl⟩
      · left
        refine ⟨?_, List.mem_cons_of_mem _ h⟩
        intro e
        apply hnd.1
        rw [← e]
        exact List.mem_map_of_mem Prod.fst h
    · simp only [hm, if_false, List.mem_cons] at h
      rcases h with h | h
      · left
        subst h
        exact ⟨hm, List.mem_cons_self _ _⟩
      · rcases ih pr hnd.2 h with h1 | ⟨h1, o, ho, h2⟩ | ⟨h1, h2⟩
        · left; exact ⟨h1.1, List.mem_cons_of_mem _ h1.2⟩
        · right; left; exact ⟨h1, o, List.mem_cons_of_mem _ ho, h2⟩
        · right; right
          refine ⟨h1, ?_⟩
          simp only [List.map_cons, List.mem_cons, not_or]
          exact ⟨fun e => hm e.symm, h2⟩

theorem accessesOf_concat (l : List (Nat × AccessOp)) (a : Nat × AccessOp) (m : Nat) :
    accessesOf (l ++ [a]) m =
      if a.1 = m then accessesOf l m ++ [a.2] else accessesOf l m := by
  unfold accessesOf
  rw [List.filter_append, List.map_append]
  by_cases h : a.1 = m
  · simp [h]
  · simp [h]

theorem accessesOf_nil_of_not_mem (l : List (Nat × AccessOp)) (m : Nat)
    (h : m ∉ l.map Prod.fst) : accessesOf l m = [] := by
  unfold accessesOf
  rw [List.map_eq_nil_iff, List.filter_eq_nil_iff]
  intro a ha
  simp only [decide_eq_true_eq]
  intro e
  apply h
  rw [← e]
  exact List.mem_map_of_mem Prod.fst ha

theorem buildMap_spec (accesses : List (Nat × AccessOp)) :
    ((buildMap accesses).map Prod.fst).Nodup ∧
      (∀ pr ∈ buildMap accesses,
        pr.1 ∈ accesses.map Prod.fst ∧ pr.2 = accessesOf accesses pr.1) ∧
      (∀ m ∈ accesses.map Prod.fst, m ∈ (buildMap accesses).map Prod.fst) := by
  induction accesses using List.reverseRecOn with
  | nil => simp [buildMap]
  | append_singleton l a ih =>
    obtain ⟨hnd, hmem, hkeys⟩ := ih
    have hstep : buildMap (l ++ [a]) = pushAccess a.1 a.2 (buildMap l) := by
      unfold buildMap
      rw [List.foldl_concat]
    rw [hstep]
    have hk := pushAccess_keys a.1 a.2 (buildMap l)
    refine ⟨?_, ?_, ?_⟩
    · rw [hk]
      split
      · exact hnd
      · rename_i hnot
        rw [List.nodup_append]
        refine ⟨hnd, List.nodup_singleton _, ?_⟩
        intro x hx hx1
        have : x = a.1 := by simpa using hx1
        subst this
        exact hnot hx
    · intro pr hpr
      rw [accessesOf_concat]
      rcases pushAccess_mem a.1 a.2 (buildMap l) pr hnd hpr with
        ⟨h1, h2⟩ | ⟨h1, ops, h2, h3⟩ | ⟨h1, h2⟩
      · obtain ⟨h3, h4⟩ := hmem pr h2
        refine ⟨by simp only [List.map_append, List.mem_append]; exact Or.inl h3, ?_⟩
        have hne : ¬ a.1 = pr.1 := fun e => h1 e.symm
        simp only [hne, if_false]
        exact h4
      · obtain ⟨_, h4⟩ := hmem (a.1, ops) h2
        refine ⟨by simp [h1], ?_⟩
        simp only at h4
        simp only [h1, if_true]
        rw [h3, h4]
      · subst h1
        refine ⟨by simp, ?_⟩
        simp only [if_true]
        have hnot : a.1 ∉ l.map Prod.fst := fun hc => h2 (hkeys a.1 hc)
        rw [accessesOf_nil_of_not_mem l a.1 hnot]
        rfl
    · intro m hm
      rw [hk]
      simp only [List.map_append, List.map_cons, List.map_nil, List.mem_append,
        List.mem_singleton] at hm
      split
      · rcases hm with h | h
        · exact hkeys m h
        · rename_i hin
          rw [h]; exact hin
      · rcases hm with h | h
        · exact List.mem_append_left _ (hkeys m h)
        · rw [h]; simp

theorem partitionMemRef_congr (foldDiff : FoldDiff) (t1 t2 : MemRefType)
    (accesses : List AccessOp) (h1 : t1.shape = t2.shape)
    (h2 : t1.elementType = t2.elementType) (h3 : t1.memorySpace = t2.memorySpace) :
    partitionMemRef foldDiff t1 accesses = partitionMemRef foldDiff t2 accesses := by
  unfold partitionMemRef
  rw [h1, h2, h3]

theorem partitionMemRef_keeps (foldDiff : FoldDiff) (ty t : MemRefType)
    (accesses : List AccessOp) (h : partitionMemRef foldDiff ty accesses = some t) :
    t.shape = ty.shape ∧ t.elementType = ty.elementType ∧
      t.memorySpace = ty.memorySpace := by
  unfold partitionMemRef at h
  cases hd : dimLoop foldDiff accesses ty.shape 0 [] [] with
  | none => rw [hd] at h; exact absurd h (by simp)
  | some pa =>
    rw [hd] at h
    obtain ⟨ps, as⟩ := pa
    simp only [Option.some.injEq] at h
    subst h
    exact ⟨rfl, rfl, rfl⟩

theorem mem_of_mem_accessesOf (l : List (Nat × AccessOp)) (m : Nat) (a : AccessOp)
    (h : a ∈ accessesOf l m) : (m, a) ∈ l := by
  unfold accessesOf at h
  rw [List.mem_map] at h
  obtain ⟨x, hx, rfl⟩ := h
  rw [List.mem_filter] at hx
  have e : x.1 = m := by simpa using hx.2
  rw [← e]
  exact hx.1

theorem exists_entry_of_key (map : List (Nat × List AccessOp)) (m : Nat)
    (h : m ∈ map.map Prod.fst) : ∃ pr ∈ map, pr.1 = m := by
  rw [List.mem_map] at h
  obtain ⟨pr, hpr, e⟩ := h
  exact ⟨pr, hpr, e⟩

/-! ## The walks visit exactly the accesses inside the scope -/

theorem walkLoadsList_iff (body : List Op) (x : Nat × AccessOp) :
    x ∈ walkLoadsList body ↔ ∃ inner ∈ body, x ∈ inner.walkLoads := by
  induction body with
  | nil => simp [walkLoadsList]
  | cons op rest ih =>
    rw [walkLoadsList, List.mem_append, ih]
    simp

theorem walkStoresList_iff (body : List Op) (x : Nat × AccessOp) :
    x ∈ walkStoresList body ↔ ∃ inner ∈ body, x ∈ inner.walkStores := by
  induction body with
  | nil => simp [walkStoresList]
  | cons op rest ih =>
    rw [walkStoresList, List.mem_append, ih]
    simp

theorem walkLoads_sound :
    ∀ (k : Nat) (o : Op), sizeOf o ≤ k → ∀ m a, (m, a) ∈ o.walkLoads →
      Op.Contains o (Op.load m a) := by
  intro k
  induction k with
  | zero =>
    intro o ho
    cases o <;> simp at ho
  | succ k ih =>
    intro o ho m a hmem
    cases o with
    | load m1 a1 =>
      rw [Op.walkLoads, List.mem_singleton] at hmem
      rw [Prod.mk.injEq] at hmem
      rw [hmem.1, hmem.2]
      exact Op.Contains.self _
    | store m1 a1 =>
      rw [Op.walkLoads] at hmem
      exact absurd hmem (List.not_mem_nil _)
    | forOp id p body =>
      rw [Op.walkLoads, walkLoadsList_iff] at hmem
      obtain ⟨inner, hin, hx⟩ := hmem
      have hlt := List.sizeOf_lt_of_mem hin
      have hsz : sizeOf inner ≤ k := by
        simp only [Op.forOp.sizeOf_spec] at ho
        omega
      exact Op.Contains.nested id p body inner _ hin (ih inner hsz m a hx)

theorem walkStores_sound :
    ∀ (k : Nat) (o : Op), sizeOf o ≤ k → ∀ m a, (m, a) ∈ o.walkStores →
      Op.Contains o (Op.store m a) := by
  intro k
  induction k with
  | zero =>
    intro o ho
    cases o <;> simp at ho
  | succ k ih =>
    intro o ho m a hmem
    cases o with
    | load m1 a1 =>
      rw [Op.walkStores] at hmem
      exact absurd hmem (List.not_mem_nil _)
    | store m1 a1 =>
      rw [Op.walkStores, List.mem_singleton] at hmem
      rw [Prod.mk.injEq] at hmem
      rw [hmem.1, hmem.2]
      exact Op.Contains.self _
    | forOp id p body =>
      rw [Op.walkStores, walkStoresList_iff] at hmem
      obtain ⟨inner, hin, hx⟩ := hmem
      have hlt := List.sizeOf_lt_of_mem hin
      have hsz : sizeOf inner ≤ k := by
        simp only [Op.forOp.sizeOf_spec] at ho
        omega
      exact Op.Contains.nested id p body inner _ hin (ih inner hsz m a hx)

theorem walkLoads_complete (o x : Op) (h : Op.Contains o x) :
    ∀ m a, x = Op.load m a → (m, a) ∈ o.walkLoads := by
  induction h with
  | self op =>
    intro m a e
    subst e
    rw [Op.walkLoads]
    exact List.mem_singleton_self _
  | nested id p body inner op hin _ ih =>
    intro m a e
    rw [Op.walkLoads, walkLoadsList_iff]
    exact ⟨inner, hin, ih m a e⟩

theorem walkStores_complete (o x : Op) (h : Op.Contains o x) :
    ∀ m a, x = Op.store m a → (m, a) ∈ o.walkStores := by
  induction h with
  | self op =>
    intro m a e
    subst e
    rw [Op.walkStores]
    exact List.mem_singleton_self _
  | nested id p body inner op hin _ ih =>
    intro m a e
    rw [Op.walkStores, walkStoresList_iff]
    exact ⟨inner, hin, ih m a e⟩

theorem walkLoads_iff (o : Op) (m : Nat) (a : AccessOp) :
    (m, a) ∈ o.walkLoads ↔ Op.Contains o (Op.load m a) :=
  ⟨walkLoads_sound (sizeOf o) o (Nat.le_refl _) m a,
    fun h => walkLoads_complete o _ h m a rfl⟩

theorem walkStores_iff (o : Op) (m : Nat) (a : AccessOp) :
    (m, a) ∈ o.walkStores ↔ Op.Contains o (Op.store m a) :=
  ⟨walkStores_sound (sizeOf o) o (Nat.le_refl _) m a,
    fun h => walkStores_complete o _ h m a rfl⟩

theorem mem_keys_iff (l : List (Nat × AccessOp)) (m : Nat) :
    m ∈ l.map Prod.fst ↔ ∃ a, (m, a) ∈ l := by
  rw [List.mem_map]
  constructor
  · rintro ⟨x, hx, rfl⟩; exact ⟨x.2, hx⟩
  · rintro ⟨a, ha⟩; exact ⟨(m, a), ha, rfl⟩

theorem partitionLoop_stages (foldDiff : FoldDiff) (outermost : Op) (types : Nat → MemRefType)
    (hwfL : ∀ a ∈ outermost.walkLoads, a.2.length = (types a.1).shape.length)
    (hwfS : ∀ a ∈ outermost.walkStores, a.2.length = (types a.1).shape.length) :
    ∃ typesL types1,
      applyArrayPartition foldDiff (buildMap outermost.walkLoads) types = some typesL ∧
      applyArrayPartition foldDiff (buildMap outermost.walkStores) typesL = some types1 ∧
      partitionLoop foldDiff outermost types = some types1 ∧
      (∀ m ∈ outermost.walkLoads.map Prod.fst,
        partitionMemRef foldDiff (types m) (accessesOf outermost.walkLoads m) =
          some (typesL m)) ∧
      (∀ m, m ∉ outermost.walkStores.map Prod.fst → types1 m = typesL m) ∧
      (∀ m ∈ outermost.walkStores.map Prod.fst,
        partitionMemRef foldDiff (types m) (accessesOf outermost.walkStores m) =
          some (types1 m)) ∧
      (∀ m ∈ outermost.walkLoads.map Prod.fst, m ∉ outermost.walkStores.map Prod.fst →
        partitionMemRef foldDiff (types m) (accessesOf outermost.walkLoads m) =
          some (types1 m)) ∧
      (∀ m, m ∉ outermost.walkLoads.map Prod.fst → m ∉ outermost.walkStores.map Prod.fst →
        types1 m = types m) := by
  obtain ⟨hndL, hmemL, hkeysL⟩ := buildMap_spec outermost.walkLoads
  obtain ⟨hndS, hmemS, hkeysS⟩ := buildMap_spec outermost.walkStores
  have hexL : ∀ pr ∈ buildMap outermost.walkLoads,
      ∃ t, partitionMemRef foldDiff (types pr.1) pr.2 = some t := by
    intro pr hpr
    obtain ⟨t, ht, _⟩ := partitionMemRef_spec foldDiff (types pr.1) pr.2 (by
      intro a ha
      rw [(hmemL pr hpr).2] at ha
      exact hwfL (pr.1, a) (mem_of_mem_accessesOf _ _ _ ha))
    exact ⟨t, ht⟩
  obtain ⟨typesL, hrunL, hinL, houtL⟩ :=
    applyArrayPartition_spec foldDiff (buildMap outermost.walkLoads) types hndL hexL
  have hsame : ∀ m, (typesL m).shape = (types m).shape ∧
      (typesL m).elementType = (types m).elementType ∧
      (typesL m).memorySpace = (types m).memorySpace := by
    intro m
    by_cases hm : m ∈ (buildMap outermost.walkLoads).map Prod.fst
    · obtain ⟨pr, hpr, e⟩ := exists_entry_of_key _ m hm
      have := partitionMemRef_keeps foldDiff (types pr.1) (typesL pr.1) pr.2 (hinL pr hpr)
      rw [e] at this
      exact this
    · rw [houtL m hm]
      exact ⟨rfl, rfl, rfl⟩
  have hcongr : ∀ m accs, partitionMemRef foldDiff (typesL m) accs =
      partitionMemRef foldDiff (types m) accs :=
    fun m accs => partitionMemRef_congr foldDiff _ _ accs (hsame m).1 (hsame m).2.1
      (hsame m).2.2
  have hexS : ∀ pr ∈ buildMap outermost.walkStores,
      ∃ t, partitionMemRef foldDiff (typesL pr.1) pr.2 = some t := by
    intro pr hpr
    obtain ⟨t, ht, _⟩ := partitionMemRef_spec foldDiff (types pr.1) pr.2 (by
      intro a ha
      rw [(hmemS pr hpr).2] at ha
      exact hwfS (pr.1, a) (mem_of_mem_accessesOf _ _ _ ha))
    exact ⟨t, by rw [hcongr]; exact ht⟩
  obtain ⟨typesS, hrunS, hinS, houtS⟩ :=
    applyArrayPartition_spec foldDiff (buildMap outermost.walkStores) typesL hndS hexS
  have hkS : ∀ m, m ∉ outermost.walkStores.map Prod.fst →
      m ∉ (buildMap outermost.walkStores).map Prod.fst := by
    intro m hm hc
    obtain ⟨pr, hpr, e⟩ := exists_entry_of_key _ m hc
    apply hm
    rw [← e]
    exact (hmemS pr hpr).1
  have hkL : ∀ m, m ∉ outermost.walkLoads.map Prod.fst →
      m ∉ (buildMap outermost.walkLoads).map Prod.fst := by
    intro m hm hc
    obtain ⟨pr, hpr, e⟩ := exists_entry_of_key _ m hc
    apply hm
    rw [← e]
    exact (hmemL pr hpr).1
  refine ⟨typesL, typesS, hrunL, hrunS, ?_, ?_, ?_, ?_, ?_, ?_⟩
  · unfold partitionLoop
    rw [hrunL]
    exact hrunS
  · intro m hm
    obtain ⟨pr, hpr, e⟩ := exists_entry_of_key _ m (hkeysL m hm)
    have h1 := hinL pr hpr
    rw [(hmemL pr hpr).2, e] at h1
    exact h1
  · intro m hm
    exact houtS m (hkS m hm)
  · intro m hm
    obtain ⟨pr, hpr, e⟩ := exists_entry_of_key _ m (hkeysS m hm)
    have h1 := hinS pr hpr
    rw [(hmemS pr hpr).2, e, hcongr] at h1
    exact h1
  · intro m hm hnot
    obtain ⟨pr, hpr, e⟩ := exists_entry_of_key _ m (hkeysL m hm)
    have h1 := hinL pr hpr
    rw [(hmemL pr hpr).2, e] at h1
    rw [houtS m (hkS m hnot)]
    exact h1
  · intro m h1 h2
    rw [houtS m (hkS m h2), houtL m (hkL m h1)]

/-- C13: for a pipelined loop scope whose accesses carry one index per dimension, the
walks collect exactly the loads and the stores inside the scope; the layout derived from
the loads is installed first on every array that is read, then the stores are
processed: the type left on an array that is written in the scope is the one the
selector computes from the array's stores alone, an array that is only read keeps the
type computed from its loads, and an array without access in the scope is untouched. -/
theorem store_layout_wins (foldDiff : FoldDiff) (outermost : Op) (types : Nat → MemRefType)
    (hwfL : ∀ m a, Op.Contains outermost (Op.load m a) →
      a.length = (types m).shape.length)
    (hwfS : ∀ m a, Op.Contains outermost (Op.store m a) →
      a.length = (types m).shape.length) :
    (∀ m a, (m, a) ∈ outermost.walkLoads ↔ Op.Contains outermost (Op.load m a)) ∧
      (∀ m a, (m, a) ∈ outermost.walkStores ↔ Op.Contains outermost (Op.store m a)) ∧
      ∃ typesL types1,
        applyArrayPartition foldDiff (buildMap outermost.walkLoads) types = some typesL ∧
        applyArrayPartition foldDiff (buildMap outermost.walkStores) typesL = some types1 ∧
        partitionLoop foldDiff outermost types = some types1 ∧
        (∀ m, (∃ a, Op.Contains outermost (Op.load m a)) →
          partitionMemRef foldDiff (types m) (accessesOf outermost.walkLoads m) =
            some (typesL m)) ∧
        (∀ m, (∃ a, Op.Contains outermost (Op.store m a)) →
          partitionMemRef foldDiff (types m) (accessesOf outermost.walkStores m) =
            some (types1 m)) ∧
        (∀ m, (∃ a, Op.Contains outermost (Op.load m a)) →
          (¬ ∃ a, Op.Contains outermost (Op.store m a)) →
          types1 m = typesL m ∧
          partitionMemRef foldDiff (types m) (accessesOf outermost.walkLoads m) =
            some (types1 m)) ∧
        (∀ m, (¬ ∃ a, Op.Contains outermost (Op.load m a)) →
          (¬ ∃ a, Op.Contains outermost (Op.store m a)) → types1 m = types m) := by
  have hkL : ∀ m, m ∈ outermost.walkLoads.map Prod.fst ↔
      ∃ a, Op.Contains outermost (Op.load m a) := by
    intro m
    rw [mem_keys_iff]
    exact exists_congr (fun a => walkLoads_iff outermost m a)
  have hkS : ∀ m, m ∈ outermost.walkStores.map Prod.fst ↔
      ∃ a, Op.Contains outermost (Op.store m a) := by
    intro m
    rw [mem_keys_iff]
    exact exists_congr (fun a => walkStores_iff outermost m a)
  obtain ⟨typesL, types1, h1, h2, h3, h4, h5, h6, h7, h8⟩ :=
    partitionLoop_stages foldDiff outermost types
      (fun x hx => hwfL x.1 x.2 ((walkLoads_iff outermost x.1 x.2).mp hx))
      (fun x hx => hwfS x.1 x.2 ((walkStores_iff outermost x.1 x.2).mp hx))
  refine ⟨walkLoads_iff outermost, walkStores_iff outermost, typesL, types1, h1, h2, h3,
    ?_, ?_, ?_, ?_⟩
  · intro m hm
    exact h4 m ((hkL m).mpr hm)
  · intro m hm
    exact h6 m ((hkS m).mpr hm)
  · intro m hl hs
    have hns : m ∉ outermost.walkStores.map Prod.fst := fun hc => hs ((hkS m).mp hc)
    exact ⟨h5 m hns, h7 m ((hkL m).mpr hl) hns⟩
  · intro m hl hs
    exact h8 m (fun hc => hl ((hkL m).mp hc)) (fun hc => hs ((hkS m).mp hc))

/-- C13, witness: array `0` is read at `{i, i+1, i+2}` and written at `{0, 4}`, array `1`
is only read, at `{i, i+1, i+2}` in the inner loop, and array `2` is not accessed.  After
the loads array `0` has the cyclic layout of its loads; at the end array `0` has the
block layout of its stores, array `1` the cyclic layout of its loads and array `2` its
original layout. -/
theorem store_layout_wins_witness :
    (applyArrayPartition offsetFold (buildMap readWrite.walkLoads)
        (fun _ => vectorType 8)).map (fun t => (t 0).layout.results) =
      some [AffineExpr.mod (AffineExpr.dim 0) (AffineExpr.const 3),
        AffineExpr.floorDiv (AffineExpr.dim 0) (AffineExpr.const 3)] ∧
      (partitionLoop offsetFold readWrite (fun _ => vectorType 8)).map
          (fun t => (t 0).layout.results) =
        some [AffineExpr.floorDiv (AffineExpr.dim 0) (AffineExpr.const 4),
          AffineExpr.mod (AffineExpr.dim 0) (AffineExpr.const 4)] ∧
      (partitionLoop offsetFold readWrite (fun _ => vectorType 8)).map
          (fun t => (t 1).layout.results) =
        some [AffineExpr.mod (AffineExpr.dim 0) (AffineExpr.const 3),
          AffineExpr.floorDiv (AffineExpr.dim 0) (AffineExpr.const 3)] ∧
      (partitionLoop offsetFold readWrite (fun _ => vectorType 8)).map (fun t => t 2) =
        some (vectorType 8) ∧
      (∀ m a, (m, a) ∈ readWrite.walkLoads ↔ Op.Contains readWrite (Op.load m a)) ∧
      (∀ m a, (m, a) ∈ readWrite.walkStores ↔ Op.Contains readWrite (Op.store m a)) ∧
      ∃ typesL types1,
        applyArrayPartition offsetFold (buildMap readWrite.walkLoads)
          (fun _ => vectorType 8) = some typesL ∧
        applyArrayPartition offsetFold (buildMap readWrite.walkStores) typesL =
          some types1 ∧
        partitionLoop offsetFold readWrite (fun _ => vectorType 8) = some types1 ∧
        (∀ m, (∃ a, Op.Contains readWrite (Op.load m a)) →
          partitionMemRef offsetFold (vectorType 8) (accessesOf readWrite.walkLoads m) =
            some (typesL m)) ∧
        (∀ m, (∃ a, Op.Contains readWrite (Op.store m a)) →
          partitionMemRef offsetFold (vectorType 8) (accessesOf readWrite.walkStores m) =
            some (types1 m)) ∧
        (∀ m, (∃ a, Op.Contains readWrite (Op.load m a)) →
          (¬ ∃ a, Op.Contains readWrite (Op.store m a)) →
          types1 m = typesL m ∧
          partitionMemRef offsetFold (vectorType 8) (accessesOf readWrite.walkLoads m) =
            some (types1 m)) ∧
        (∀ m, (¬ ∃ a, Op.Contains readWrite (Op.load m a)) →
          (¬ ∃ a, Op.Contains readWrite (Op.store m a)) → types1 m = vectorType 8) :=
  have h := store_layout_wins offsetFold readWrite (fun _ => vectorType 8)
    (fun m a hc =>
      (by decide : ∀ x ∈ readWrite.walkLoads, x.2.length = (vectorType 8).shape.length)
        (m, a) (walkLoads_complete readWrite _ hc m a rfl))
    (fun m a hc =>
      (by decide : ∀ x ∈ readWrite.walkStores, x.2.length = (vectorType 8).shape.length)
        (m, a) (walkStores_complete readWrite _ hc m a rfl))
  ⟨by decide, by decide, by decide, by decide, h.1, h.2.1, h.2.2⟩

/-! ## The selector depends only on the set of unique indices -/

theorem foldl_max_le (l : List Nat) (v : Nat) (h : ∀ x ∈ l, x ≤ v) :
    ∀ (m : Nat), m ≤ v → l.foldl max m ≤ v := by
  induction l with
  | nil => intro m hm; exact hm
  | cons a rest ih =>
    intro m hm
    exact ih (fun x hx => h x (List.mem_cons_of_mem _ hx)) (max m a)
      (max_le hm (h a (List.mem_cons_self _ _)))

theorem foldl_max_eq_of_subset (l1 l2 : List Nat) (h12 : ∀ x ∈ l1, x ∈ l2)
    (h21 : ∀ x ∈ l2, x ∈ l1) : l1.foldl max 0 = l2.foldl max 0 := by
  apply le_antisymm
  · exact foldl_max_le l1 _ (fun x hx => le_foldl_max_of_mem l2 0 x (h12 x hx)) 0
      (Nat.zero_le _)
  · exact foldl_max_le l2 _ (fun x hx => le_foldl_max_of_mem l1 0 x (h21 x hx)) 0
      (Nat.zero_le _)

theorem indexPairs_total (l : List AffineExpr) :
    ∀ x y, x ∈ l → y ∈ l → x ≠ y → (x, y) ∈ indexPairs l ∨ (y, x) ∈ indexPairs l := by
  induction l with
  | nil => intro x y hx; exact absurd hx (List.not_mem_nil x)
  | cons a rest ih =>
    intro x y hx hy hne
    unfold indexPairs
    rcases List.mem_cons.mp hx with rfl | hx1
    · rcases List.mem_cons.mp hy with rfl | hy1
      · exact absurd rfl hne
      · left
        exact List.mem_append_left _ (List.mem_map_of_mem _ hy1)
    · rcases List.mem_cons.mp hy with rfl | hy1
      · right
        exact List.mem_append_left _ (List.mem_map_of_mem _ hx1)
      · rcases ih x y hx1 hy1 hne with h | h
        · left; exact List.mem_append_right _ h
        · right; exact List.mem_append_right _ h

theorem mem_distances (foldDiff : FoldDiff) (l : List AffineExpr) (v : Nat) :
    v ∈ (foldedDiffs foldDiff l).map (fun x => x % uintModulus) ↔
      ∃ p ∈ indexPairs l, ∃ c, foldDiff p.2 p.1 = some c ∧ v = c.natAbs % uintModulus := by
  unfold foldedDiffs
  simp only [List.mem_map, List.mem_filterMap, Option.map_eq_some']
  constructor
  · rintro ⟨x, ⟨p, hp, c, hc, rfl⟩, rfl⟩
    exact ⟨p, hp, c, hc, rfl⟩
  · rintro ⟨p, hp, c, hc, rfl⟩
    exact ⟨c.natAbs, ⟨p, hp, c, hc, rfl⟩, rfl⟩

theorem distances_subset (foldDiff : FoldDiff)
    (hanti : ∀ a b c, foldDiff a b = some c ↔ foldDiff b a = some (-c))
    (l1 l2 : List AffineExpr) (hnd : l1.Nodup) (hsub : ∀ x ∈ l1, x ∈ l2) :
    ∀ v ∈ (foldedDiffs foldDiff l1).map (fun x => x % uintModulus),
      v ∈ (foldedDiffs foldDiff l2).map (fun x => x % uintModulus) := by
  intro v hv
  rw [mem_distances] at hv ⊢
  obtain ⟨p, hp, c, hc, rfl⟩ := hv
  obtain ⟨h1, h2, h3⟩ := indexPairs_mem l1 hnd p hp
  rcases indexPairs_total l2 p.1 p.2 (hsub _ h1) (hsub _ h2) h3 with h | h
  · exact ⟨(p.1, p.2), h, c, hc, rfl⟩
  · refine ⟨(p.2, p.1), h, -c, (hanti _ _ _).mp hc, ?_⟩
    rw [Int.natAbs_neg]

theorem maxDistance_eq_of_same_members (foldDiff : FoldDiff)
    (hanti : ∀ a b c, foldDiff a b = some c ↔ foldDiff b a = some (-c))
    (l1 l2 : List AffineExpr) (hnd1 : l1.Nodup) (hnd2 : l2.Nodup)
    (hmem : ∀ x, x ∈ l1 ↔ x ∈ l2) :
    maxDistance foldDiff l1 = maxDistance foldDiff l2 := by
  unfold maxDistance
  rw [outerLoop_eq, outerLoop_eq]
  rw [foldl_max_eq_of_subset _ _
    (distances_subset foldDiff hanti l1 l2 hnd1 (fun x hx => (hmem x).mp hx))
    (distances_subset foldDiff hanti l2 l1 hnd2 (fun x hx => (hmem x).mpr hx))]

theorem partitionDim_eq_of_same_members (foldDiff : FoldDiff)
    (hanti : ∀ a b c, foldDiff a b = some c ↔ foldDiff b a = some (-c))
    (l1 l2 : List AffineExpr) (hnd1 : l1.Nodup) (hnd2 : l2.Nodup)
    (hmem : ∀ x, x ∈ l1 ↔ x ∈ l2) (size : Int) (d : Nat) :
    partitionDim foldDiff size d l1 = partitionDim foldDiff size d l2 := by
  have hperm : l1.Perm l2 := (List.perm_ext_iff_of_nodup hnd1 hnd2).mpr hmem
  unfold partitionDim
  rw [maxDistance_eq_of_same_members foldDiff hanti l1 l2 hnd1 hnd2 hmem, hperm.length_eq]

theorem collectIndices_complete (d : Nat) :
    ∀ (accesses : List AccessOp) (acc r : List AffineExpr),
      collectIndices d accesses acc = some r →
        (∀ x ∈ acc, x ∈ r) ∧ ∀ a ∈ accesses, ∀ x, a.get? d = some x → x ∈ r := by
  intro accesses
  induction accesses with
  | nil =>
    intro acc r h
    simp only [collectIndices, Option.some.injEq] at h
    subst h
    exact ⟨fun x hx => hx, by simp⟩
  | cons a rest ih =>
    intro acc r h
    unfold collectIndices at h
    cases hg : a.get? d with
    | none => rw [hg] at h; exact absurd h (by simp)
    | some index =>
      rw [hg] at h
      simp only at h
      split at h
      · rename_i hin
        obtain ⟨h1, h2⟩ := ih acc r h
        refine ⟨h1, ?_⟩
        intro b hb x hx
        rcases List.mem_cons.mp hb with rfl | hb1
        · rw [hg] at hx
          have : index = x := Option.some.inj hx
          subst this
          exact h1 _ hin
        · exact h2 b hb1 x hx
      · obtain ⟨h1, h2⟩ := ih _ r h
        refine ⟨fun x hx => h1 x (List.mem_append_left _ hx), ?_⟩
        intro b hb x hx
        rcases List.mem_cons.mp hb with rfl | hb1
        · rw [hg] at hx
          have : index = x := Option.some.inj hx
          subst this
          exact h1 _ (List.mem_append_right _ (List.mem_singleton_self _))
        · exact h2 b hb1 x hx

theorem selector_dim_eq (foldDiff : FoldDiff)
    (hanti : ∀ a b c, foldDiff a b = some c ↔ foldDiff b a = some (-c))
    (acc1 acc2 : List AccessOp) (d : Nat)
    (hwf1 : ∀ a ∈ acc1, d < a.length) (hwf2 : ∀ a ∈ acc2, d < a.length)
    (hset : ∀ x, (∃ a ∈ acc1, a.get? d = some x) ↔ (∃ a ∈ acc2, a.get? d = some x)) :
    ∃ l1 l2, collectIndices d acc1 [] = some l1 ∧ collectIndices d acc2 [] = some l2 ∧
      ∀ size, partitionDim foldDiff size d l1 = partitionDim foldDiff size d l2 := by
  obtain ⟨l1, h1⟩ := collectIndices_some d acc1 [] hwf1
  obtain ⟨l2, h2⟩ := collectIndices_some d acc2 [] hwf2
  refine ⟨l1, l2, h1, h2, ?_⟩
  have hnd1 := collectIndices_nodup d acc1 [] l1 List.nodup_nil h1
  have hnd2 := collectIndices_nodup d acc2 [] l2 List.nodup_nil h2
  have hm1 : ∀ x, x ∈ l1 ↔ ∃ a ∈ acc1, a.get? d = some x := by
    intro x
    constructor
    · intro hx
      rcases collectIndices_mem d acc1 [] l1 h1 x hx with h | h
      · exact absurd h (List.not_mem_nil x)
      · exact h
    · rintro ⟨a, ha, hax⟩
      exact (collectIndices_complete d acc1 [] l1 h1).2 a ha x hax
  have hm2 : ∀ x, x ∈ l2 ↔ ∃ a ∈ acc2, a.get? d = some x := by
    intro x
    constructor
    · intro hx
      rcases collectIndices_mem d acc2 [] l2 h2 x hx with h | h
      · exact absurd h (List.not_mem_nil x)
      · exact h
    · rintro ⟨a, ha, hax⟩
      exact (collectIndices_complete d acc2 [] l2 h2).2 a ha x hax
  intro size
  exact partitionDim_eq_of_same_members foldDiff hanti l1 l2 hnd1 hnd2
    (fun x => by rw [hm1, hm2]; exact hset x) size d

theorem dimLoop_congr (foldDiff : FoldDiff)
    (hanti : ∀ a b c, foldDiff a b = some c ↔ foldDiff b a = some (-c))
    (acc1 acc2 : List AccessOp)
    (hset : ∀ d x, (∃ a ∈ acc1, a.get? d = some x) ↔ (∃ a ∈ acc2, a.get? d = some x)) :
    ∀ (shape : List Int) (dim : Nat) (ps as : List AffineExpr),
      (∀ a ∈ acc1, dim + shape.length ≤ a.length) →
      (∀ a ∈ acc2, dim + shape.length ≤ a.length) →
      dimLoop foldDiff acc1 shape dim ps as = dimLoop foldDiff acc2 shape dim ps as := by
  intro shape
  induction shape with
  | nil => intro dim ps as _ _; rfl
  | cons size rest ih =>
    intro dim ps as hwf1 hwf2
    simp only [List.length_cons] at hwf1 hwf2
    obtain ⟨l1, l2, h1, h2, heq⟩ := selector_dim_eq foldDiff hanti acc1 acc2 dim
      (fun a ha => by have := hwf1 a ha; omega) (fun a ha => by have := hwf2 a ha; omega)
      (hset dim)
    unfold dimLoop
    rw [h1, h2]
    simp only
    rw [heq size]
    exact ih (dim + 1) _ _ (fun a ha => by have := hwf1 a ha; omega)
      (fun a ha => by have := hwf2 a ha; omega)

theorem offsetFold_antisymm :
    ∀ a b c, offsetFold a b = some c ↔ offsetFold b a = some (-c) := by
  intro a b c
  unfold offsetFold
  cases ha : offsetForm a with
  | none => simp
  | some pa =>
    cases hb : offsetForm b with
    | none => simp
    | some pb =>
      obtain ⟨ba, ca⟩ := pa
      obtain ⟨bb, cb⟩ := pb
      simp only
      by_cases hbase : ba = bb
      · subst hbase
        simp only [if_true, Option.some.injEq]
        constructor <;> intro h <;> omega
      · have hbase2 : ¬ bb = ba := fun e => hbase e.symm
        simp [hbase, hbase2]

/-- C16: with an antisymmetric folding primitive, two lists of access sites (one index
per dimension each) that are permutations of each other, or that have the same set of
index expressions at every dimension (as when access sites with an index already
present are repeated), give the same dimension loop result and the same installed
type. -/
theorem selector_depends_on_index_set (foldDiff : FoldDiff) (ty : MemRefType)
    (acc1 acc2 : List AccessOp)
    (hanti : ∀ a b c, foldDiff a b = some c ↔ foldDiff b a = some (-c))
    (hwf1 : ∀ a ∈ acc1, a.length = ty.shape.length)
    (hwf2 : ∀ a ∈ acc2, a.length = ty.shape.length)
    (h : acc1.Perm acc2 ∨
      ∀ d x, (∃ a ∈ acc1, a.get? d = some x) ↔ (∃ a ∈ acc2, a.get? d = some x)) :
    dimLoop foldDiff acc1 ty.shape 0 [] [] = dimLoop foldDiff acc2 ty.shape 0 [] [] ∧
      partitionMemRef foldDiff ty acc1 = partitionMemRef foldDiff ty acc2 := by
  have hset : ∀ d x,
      (∃ a ∈ acc1, a.get? d = some x) ↔ (∃ a ∈ acc2, a.get? d = some x) := by
    rcases h with hp | hs
    · intro d x
      constructor
      · rintro ⟨a, ha, hx⟩; exact ⟨a, hp.subset ha, hx⟩
      · rintro ⟨a, ha, hx⟩; exact ⟨a, hp.symm.subset ha, hx⟩
    · exact hs
  have hdl := dimLoop_congr foldDiff hanti acc1 acc2 hset ty.shape 0 [] []
    (fun a ha => by rw [hwf1 a ha]; omega) (fun a ha => by rw [hwf2 a ha]; omega)
  refine ⟨hdl, ?_⟩
  unfold partitionMemRef
  rw [hdl]

/-- C16, witness: the sites `{i, i+1, i+2}` and the sites `{i+2, i, i+1, i}` give the
same cyclic layout with factor `3`. -/
theorem selector_depends_on_index_set_witness :
    (partitionMemRef offsetFold (vectorType 8) shuffledAccesses).map
        (fun t => t.layout.results) =
      some [AffineExpr.mod (AffineExpr.dim 0) (AffineExpr.const 3),
        AffineExpr.floorDiv (AffineExpr.dim 0) (AffineExpr.const 3)] ∧
      (dimLoop offsetFold windowAccesses (vectorType 8).shape 0 [] [] =
          dimLoop offsetFold shuffledAccesses (vectorType 8).shape 0 [] [] ∧
        partitionMemRef offsetFold (vectorType 8) windowAccesses =
          partitionMemRef offsetFold (vectorType 8) shuffledAccesses) :=
  ⟨by decide,
    selector_depends_on_index_set offsetFold (vectorType 8) windowAccesses shuffledAccesses
      offsetFold_antisymm (by decide) (by decide)
      (Or.inr (by
        intro d x
        cases d with
        | zero => simp [windowAccesses, shuffledAccesses]; tauto
        | succ k => simp [windowAccesses, shuffledAccesses]))⟩

/-! ## Stability of the rule under growth of the state -/

theorem consumerLoop_stable (st st1 : Levels)
    (hle : ∀ m l, st m = some l → st1 m = some l) :
    ∀ (cs : List Nat) (lvl v : Nat), consumerLoop st cs lvl = some v →
      consumerLoop st1 cs lvl = some v := by
  intro cs
  induction cs with
  | nil => intro lvl v h; exact h
  | cons c rest ih =>
    intro lvl v h
    unfold consumerLoop at h ⊢
    cases hc : st c with
    | none => rw [hc] at h; exact absurd h (by simp)
    | some cl =>
      rw [hc] at h
      rw [hle c cl hc]
      exact ih _ v h

theorem outputLoop_stable (ig : Bool) (g : Dataflow) (st st1 : Levels) (n : Nat)
    (hle : ∀ m l, st m = some l → st1 m = some l) :
    ∀ (outs : List Nat) (lvl v : Nat), outputLoop ig g st n outs lvl = some v →
      outputLoop ig g st1 n outs lvl = some v := by
  intro outs
  induction outs with
  | nil => intro lvl v h; exact h
  | cons o rest ih =>
    intro lvl v h
    unfold outputLoop at h ⊢
    split at h
    · exact absurd h (by simp)
    · rename_i hv
      simp only [hv, if_false]
      cases hc : consumerLoop st (g.dependentConsumers o n) lvl with
      | none => rw [hc] at h; exact absurd h (by simp)
      | some l1 =>
        rw [hc] at h
        rw [consumerLoop_stable st st1 hle _ lvl l1 hc]
        exact ih l1 v h

theorem reach_keeps (ig : Bool) (g : Dataflow) (st0 st : Levels)
    (h : Reach ig g st0 st) : ∀ m l, st0 m = some l → st m = some l := by
  induction h with
  | refl => intro m l h; exact h
  | step st st1 n _ _ hr ih =>
    intro m l h
    exact matchAndRewrite_keeps ig g st st1 n m l hr (ih m l h)

theorem reach_trans (ig : Bool) (g : Dataflow) (st0 st st1 : Levels)
    (h1 : Reach ig g st0 st) (h2 : Reach ig g st st1) : Reach ig g st0 st1 := by
  induction h2 with
  | refl => exact h1
  | step a b n _ hn hr ih => exact Reach.step a b n ih hn hr

theorem reach_justified (ig : Bool) (g : Dataflow) (st0 st : Levels)
    (h : Reach ig g st0 st) :
    ∀ n l, st n = some l →
      st0 n = some l ∨ (n ∈ g.nodes ∧ outputLoop ig g st n (g.outputs n) 0 = some l) := by
  induction h with
  | refl => intro n l h; exact Or.inl h
  | step st st1 k _ hk hr ih =>
    intro n l hn
    obtain ⟨hknone, v, hv, rfl⟩ := matchAndRewrite_some ig g st st1 k hr
    have hle : ∀ m l, st m = some l → Function.update st k (some v) m = some l :=
      fun m l hm => matchAndRewrite_keeps ig g st _ k m l hr hm
    by_cases hnk : n = k
    · subst hnk
      rw [Function.update_same] at hn
      have : v = l := Option.some.inj hn
      subst this
      exact Or.inr ⟨hk, outputLoop_stable ig g st _ n hle _ 0 v hv⟩
    · rw [Function.update_noteq hnk] at hn
      rcases ih n l hn with h1 | ⟨h1, h2⟩
      · exact Or.inl h1
      · exact Or.inr ⟨h1, outputLoop_stable ig g st _ n hle _ 0 l h2⟩

theorem reach_le_fixpoint (ig : Bool) (g : Dataflow) (st0 st fx : Levels)
    (hst : Reach ig g st0 st) (hfx : Reach ig g st0 fx) (hfix : IsFixpoint ig g fx) :
    ∀ m l, st m = some l → fx m = some l := by
  induction hst with
  | refl => exact reach_keeps ig g st0 fx hfx
  | step st st1 k hreach hk hr ih =>
    intro m l hm
    obtain ⟨hknone, v, hv, rfl⟩ := matchAndRewrite_some ig g st st1 k hr
    by_cases hmk : m = k
    · subst hmk
      rw [Function.update_same] at hm
      have : v = l := Option.some.inj hm
      subst this
      have hvfx := outputLoop_stable ig g st fx m ih _ 0 v hv
      cases hfm : fx m with
      | none =>
        have := hfix m hk
        unfold matchAndRewrite at this
        simp only [hfm, Option.isSome_none, Bool.false_eq_true, if_false, hvfx] at this
        exact absurd this (by simp)
      | some l2 =>
        rcases reach_justified ig g st0 fx hfx m l2 hfm with h0 | ⟨_, h2⟩
        · have := reach_keeps ig g st0 st hreach m l2 h0
          rw [hknone] at this
          exact absurd this (by simp)
        · rw [hvfx] at h2
          exact h2.symm
    · rw [Function.update_noteq hmk] at hm
      exact ih m l hm

theorem fixpoint_unique (ig : Bool) (g : Dataflow) (st0 f1 f2 : Levels)
    (h1 : Reach ig g st0 f1) (h2 : Reach ig g st0 f2)
    (hf1 : IsFixpoint ig g f1) (hf2 : IsFixpoint ig g f2) : f1 = f2 := by
  funext m
  cases hm : f1 m with
  | some l => exact (reach_le_fixpoint ig g st0 f1 f2 h1 h2 hf2 m l hm).symm
  | none =>
    cases hm2 : f2 m with
    | none => rfl
    | some l =>
      have := reach_le_fixpoint ig g st0 f2 f1 h2 h1 hf1 m l hm2
      rw [hm] at this
      exact absurd this (by simp)

/-! ## Both kinds of round stay within the reachable states -/

theorem outputLoop_withNodes (ig : Bool) (g : Dataflow) (ns : List Nat) (st : Levels)
    (n : Nat) : ∀ (outs : List Nat) (lvl : Nat),
      outputLoop ig (withNodes g ns) st n outs lvl = outputLoop ig g st n outs lvl := by
  intro outs
  induction outs with
  | nil => intro lvl; rfl
  | cons o rest ih =>
    intro lvl
    unfold outputLoop
    have hv : hasViolation (withNodes g ns) n o = hasViolation g n o := rfl
    have hc : (withNodes g ns).dependentConsumers o n = g.dependentConsumers o n := rfl
    rw [hv, hc]
    split
    · rfl
    · cases consumerLoop st (g.dependentConsumers o n) lvl with
      | none => rfl
      | some l1 => exact ih l1

theorem matchAndRewrite_withNodes (ig : Bool) (g : Dataflow) (ns : List Nat) (st : Levels)
    (n : Nat) : matchAndRewrite ig (withNodes g ns) st n = matchAndRewrite ig g st n := by
  unfold matchAndRewrite
  have ho : (withNodes g ns).outputs n = g.outputs n := rfl
  rw [ho, outputLoop_withNodes]

theorem reach_withNodes (ig : Bool) (g : Dataflow) (ns : List Nat) (st0 st : Levels)
    (hsub : ∀ n ∈ ns, n ∈ g.nodes) (h : Reach ig (withNodes g ns) st0 st) :
    Reach ig g st0 st := by
  induction h with
  | refl => exact Reach.refl
  | step a b n _ hn hr ih =>
    rw [matchAndRewrite_withNodes] at hr
    exact Reach.step a b n ih (hsub n hn) hr

theorem scanNodes_reach (ig : Bool) (g : Dataflow) (st0 : Levels) (ns : List Nat) :
    ∀ (st : Levels), (∀ n ∈ ns, n ∈ g.nodes) → Reach ig g st0 st →
      Reach ig g st0 (scanNodes ig g ns st).1 := by
  induction ns with
  | nil => intro st _ h; exact h
  | cons n rest ih =>
    intro st hsub h
    have hrest : ∀ m ∈ rest, m ∈ g.nodes := fun m hm => hsub m (List.mem_cons_of_mem _ hm)
    unfold scanNodes
    cases hr : matchAndRewrite ig g st n with
    | none => exact ih st hrest h
    | some st1 =>
      exact ih st1 hrest (Reach.step st st1 n h (hsub n (List.mem_cons_self _ _)) hr)

theorem driver_reach (ig : Bool) (g : Dataflow) (st0 : Levels) :
    ∀ (k : Nat) (st : Levels), Reach ig g st0 st →
      Reach ig g st0 (applyPatternsGreedily ig g k st) := by
  intro k
  induction k with
  | zero => intro st h; exact h
  | succ k ih =>
    intro st h
    unfold applyPatternsGreedily
    have h1 := scanNodes_reach ig g st0 g.nodes st (fun n hn => hn) h
    split
    · exact ih _ h1
    · exact h1

theorem driver_isFixpoint (ig : Bool) (g : Dataflow) (k : Nat) (st : Levels)
    (hk : g.nodes.length ≤ k) : IsFixpoint ig g (applyPatternsGreedily ig g k st) :=
  (scanNodes_false ig g g.nodes _ (driver_fixpoint ig g k st hk)).2

theorem batchOn_ge (ig : Bool) (g : Dataflow) (ns : List Nat) (st : Levels) :
    ∀ m l, st m = some l → batchOn ig g ns st m = some l := by
  intro m l h
  unfold batchOn
  split
  · rw [matchAndRewrite_of_leveled ig g st m (by simp [h])]
    exact h
  · exact h

theorem batchOn_reach (ig : Bool) (g : Dataflow) (st0 st : Levels)
    (h : Reach ig g st0 st) :
    ∀ (ns : List Nat), (∀ n ∈ ns, n ∈ g.nodes) → Reach ig g st0 (batchOn ig g ns st) := by
  intro ns
  induction ns with
  | nil =>
    intro _
    have e : batchOn ig g [] st = st := by
      funext m
      simp [batchOn]
    rw [e]
    exact h
  | cons n rest ih =>
    intro hsub
    have hB := ih (fun m hm => hsub m (List.mem_cons_of_mem _ hm))
    by_cases hskip : n ∈ rest ∨ matchAndRewrite ig g st n = none
    · have e : batchOn ig g (n :: rest) st = batchOn ig g rest st := by
        funext m
        unfold batchOn
        by_cases hmn : m = n
        · subst hmn
          rcases hskip with h1 | h1
          · simp [h1]
          · simp [h1]
        · simp [hmn]
      rw [e]
      exact hB
    · simp only [not_or] at hskip
      obtain ⟨hnr, hsome⟩ := hskip
      cases hr : matchAndRewrite ig g st n with
      | none => exact absurd hr hsome
      | some st1 =>
        obtain ⟨hnone, v, hv, rfl⟩ := matchAndRewrite_some ig g st st1 n hr
        have hBn : batchOn ig g rest st n = none := by
          unfold batchOn
          simp [hnr, hnone]
        have hvB := outputLoop_stable ig g st (batchOn ig g rest st) n
          (batchOn_ge ig g rest st) _ 0 v hv
        have hstep : matchAndRewrite ig g (batchOn ig g rest st) n =
            some (Function.update (batchOn ig g rest st) n (some v)) := by
          unfold matchAndRewrite
          simp [hBn, hvB]
        have e : batchOn ig g (n :: rest) st =
            Function.update (batchOn ig g rest st) n (some v) := by
          funext m
          by_cases hmn : m = n
          · subst hmn
            rw [Function.update_same]
            unfold batchOn
            simp [hr]
          · rw [Function.update_noteq hmn]
            unfold batchOn
            simp [hmn]
        rw [e]
        exact Reach.step _ _ n hB (hsub n (List.mem_cons_self _ _)) hstep

theorem batchRound_reach (ig : Bool) (g : Dataflow) (st0 : Levels) :
    ∀ (k : Nat), Reach ig g st0 ((batchRound ig g)^[k] st0) := by
  intro k
  induction k with
  | zero => exact Reach.refl
  | succ k ih =>
    rw [Function.iterate_succ_apply']
    exact batchOn_reach ig g st0 _ ih g.nodes (fun n hn => hn)

theorem batchRound_of_fixpoint (ig : Bool) (g : Dataflow) (st : Levels)
    (h : IsFixpoint ig g st) : batchRound ig g st = st := by
  funext m
  unfold batchRound
  split
  · rename_i hm
    rw [h m hm]
  · rfl

theorem batchRound_progress (ig : Bool) (g : Dataflow) (st : Levels)
    (h : ¬ IsFixpoint ig g st) : unleveled g (batchRound ig g st) < unleveled g st := by
  unfold IsFixpoint at h
  push_neg at h
  obtain ⟨n, hn, hne⟩ := h
  cases hr : matchAndRewrite ig g st n with
  | none => exact absurd hr hne
  | some st1 =>
    obtain ⟨hnone, v, _, rfl⟩ := matchAndRewrite_some ig g st st1 n hr
    apply countP_lt_of_strict
    · intro x _ hx
      cases hs : st x with
      | none => rfl
      | some l =>
        have := batchOn_ge ig g g.nodes st x l hs
        change batchRound ig g st x = some l at this
        rw [this] at hx
        exact absurd hx (by simp)
    · refine ⟨n, hn, by simp [hnone], ?_⟩
      unfold batchRound
      simp [hn, hr]

theorem batchRound_iterate_progress (ig : Bool) (g : Dataflow) :
    ∀ (k : Nat) (st : Levels), IsFixpoint ig g ((batchRound ig g)^[k] st) ∨
      unleveled g ((batchRound ig g)^[k] st) + k ≤ unleveled g st := by
  intro k
  induction k with
  | zero => intro st; right; simp
  | succ k ih =>
    intro st
    rw [Function.iterate_succ_apply]
    by_cases hfix : IsFixpoint ig g st
    · left
      rw [batchRound_of_fixpoint ig g st hfix]
      have : ∀ j, (batchRound ig g)^[j] st = st := by
        intro j
        induction j with
        | zero => rfl
        | succ j ihj => rw [Function.iterate_succ_apply, batchRound_of_fixpoint ig g st hfix, ihj]
      rw [this k]
      exact hfix
    · have hlt := batchRound_progress ig g st hfix
      rcases ih (batchRound ig g st) with h | h
      · left; exact h
      · right; omega

theorem isFixpoint_of_all_leveled (ig : Bool) (g : Dataflow) (st : Levels)
    (h : ∀ n ∈ g.nodes, (st n).isSome = true) : IsFixpoint ig g st :=
  fun n hn => matchAndRewrite_of_leveled ig g st n (h n hn)

theorem batchRound_isFixpoint (ig : Bool) (g : Dataflow) (k : Nat) (st : Levels)
    (hk : g.nodes.length ≤ k) : IsFixpoint ig g ((batchRound ig g)^[k] st) := by
  rcases batchRound_iterate_progress ig g k st with h | h
  · exact h
  · have := unleveled_le_length g st
    exact isFixpoint_of_all_leveled ig g _ (all_leveled_of_unleveled_zero g _ (by omega))

/-- C18: for every graph, every initial level assignment and both values of
`ignoreViolations`, once at least `nodeCount` rounds are available the driver that
visits the nodes in any order `ns` and commits each level immediately, the driver in the
original order, and rounds that commit all their levels together at the end end in the
same state; more generally any two fixpoints reached by applying the rule in any order
are equal. -/
theorem schedule_order_independent (ig : Bool) (g : Dataflow) (st0 : Levels)
    (ns : List Nat) (k1 k2 : Nat) (hperm : ns.Perm g.nodes)
    (hk1 : g.nodes.length ≤ k1) (hk2 : g.nodes.length ≤ k2) :
    applyPatternsGreedily ig (withNodes g ns) k1 st0 = applyPatternsGreedily ig g k2 st0 ∧
      applyPatternsGreedily ig (withNodes g ns) k1 st0 = (batchRound ig g)^[k2] st0 ∧
      (∀ f1 f2, Reach ig g st0 f1 → Reach ig g st0 f2 → IsFixpoint ig g f1 →
        IsFixpoint ig g f2 → f1 = f2) := by
  have hlen : (withNodes g ns).nodes.length ≤ k1 := by
    have : (withNodes g ns).nodes = ns := rfl
    rw [this, hperm.length_eq]
    exact hk1
  have hr1 : Reach ig g st0 (applyPatternsGreedily ig (withNodes g ns) k1 st0) :=
    reach_withNodes ig g ns st0 _ (fun n hn => hperm.subset hn)
      (driver_reach ig (withNodes g ns) st0 k1 st0 Reach.refl)
  have hf1 : IsFixpoint ig g (applyPatternsGreedily ig (withNodes g ns) k1 st0) := by
    intro n hn
    have := driver_isFixpoint ig (withNodes g ns) k1 st0 hlen n (hperm.symm.subset hn)
    rw [matchAndRewrite_withNodes] at this
    exact this
  refine ⟨?_, ?_, ?_⟩
  · exact fixpoint_unique ig g st0 _ _ hr1 (driver_reach ig g st0 k2 st0 Reach.refl) hf1
      (driver_isFixpoint ig g k2 st0 hk2)
  · exact fixpoint_unique ig g st0 _ _ hr1 (batchRound_reach ig g st0 k2) hf1
      (batchRound_isFixpoint ig g k2 st0 hk2)
  · intro f1 f2 h1 h2 hx1 hx2
    exact fixpoint_unique ig g st0 f1 f2 h1 h2 hx1 hx2

/-- C18, witness: the diamond graph visited in the order `3, 1, 0, 2` with immediate
commits and the same graph with batch commits both give node `0` the level `3`. -/
theorem schedule_order_independent_witness :
    applyPatternsGreedily true (withNodes diamond [3, 1, 0, 2]) 4 emptyState.level 0 =
        some 3 ∧
      (batchRound true diamond)^[4] emptyState.level 0 = some 3 ∧
      applyPatternsGreedily true (withNodes diamond [3, 1, 0, 2]) 4 emptyState.level =
        applyPatternsGreedily true diamond 4 emptyState.level ∧
      applyPatternsGreedily true (withNodes diamond [3, 1, 0, 2]) 4 emptyState.level =
        (batchRound true diamond)^[4] emptyState.level :=
  have h := schedule_order_independent true diamond emptyState.level [3, 1, 0, 2] 4 4
    (by decide) (by decide) (by decide)
  ⟨by decide, by decide, h.1, h.2.1⟩

/-! ## Levels of states reached from the empty state -/

theorem foldl_max_lt (l : List Nat) (v : Nat) (h : ∀ x ∈ l, x < v) :
    ∀ (m : Nat), m < v → l.foldl max m < v := by
  induction l with
  | nil => intro m hm; exact hm
  | cons a rest ih =>
    intro m hm
    exact ih (fun x hx => h x (List.mem_cons_of_mem _ hx)) (max m a)
      (max_lt hm (h a (List.mem_cons_self _ _)))

theorem foldl_max_mem (l : List Nat) :
    ∀ (m : Nat), l.foldl max m = m ∨ l.foldl max m ∈ l := by
  induction l with
  | nil => intro m; exact Or.inl rfl
  | cons a rest ih =>
    intro m
    rcases ih (max m a) with h | h
    · rcases le_total m a with hma | ham
      · right
        rw [List.foldl_cons, h, max_eq_right hma]
        exact List.mem_cons_self _ _
      · left
        rw [List.foldl_cons, h, max_eq_left ham]
    · right
      exact List.mem_cons_of_mem _ h

theorem consumerLoop_some_leveled (st : Levels) (cs : List Nat) (lvl v : Nat)
    (h : consumerLoop st cs lvl = some v) : ∀ c ∈ cs, (st c).isSome = true := by
  intro c hc
  cases hs : st c with
  | some l => rfl
  | none =>
    rw [(consumerLoop_none_iff st cs lvl).mpr ⟨c, hc, hs⟩] at h
    exact absurd h (by simp)

theorem outputLoop_some_leveled (ig : Bool) (g : Dataflow) (st : Levels) (n : Nat) :
    ∀ (outs : List Nat) (lvl v : Nat), outputLoop ig g st n outs lvl = some v →
      ∀ b ∈ outs, ∀ c ∈ g.dependentConsumers b n, (st c).isSome = true := by
  intro outs
  induction outs with
  | nil => intro lvl v _ b hb; exact absurd hb (List.not_mem_nil b)
  | cons o rest ih =>
    intro lvl v h b hb c hc
    unfold outputLoop at h
    split at h
    · exact absurd h (by simp)
    · cases hcl : consumerLoop st (g.dependentConsumers o n) lvl with
      | none => rw [hcl] at h; exact absurd h (by simp)
      | some l1 =>
        rw [hcl] at h
        rcases List.mem_cons.mp hb with rfl | hb1
        · exact consumerLoop_some_leveled st _ lvl l1 hcl c hc
        · exact ih l1 v h b hb1 c hc

/-- A state all of whose levels were assigned by the rule. -/
theorem justified_of_reach (ig : Bool) (g : Dataflow) (st0 st : Levels)
    (h0 : ∀ n, st0 n = none) (h : Reach ig g st0 st) :
    ∀ n l, st n = some l →
      n ∈ g.nodes ∧ outputLoop ig g st n (g.outputs n) 0 = some l := by
  intro n l hn
  rcases reach_justified ig g st0 st h n l hn with h1 | h1
  · rw [h0 n] at h1
    exact absurd h1 (by simp)
  · exact h1

theorem justified_val (ig : Bool) (g : Dataflow) (st : Levels) (n l : Nat)
    (h : outputLoop ig g st n (g.outputs n) 0 = some l) :
    l = ((allConsumers g n).map
      (fun c => ((st c).getD 0 + 1) % uintModulus)).foldl max 0 :=
  outputLoop_val ig g st n (g.outputs n) 0 l h

theorem justified_lt (ig : Bool) (g : Dataflow) (st : Levels) (n l : Nat)
    (h : outputLoop ig g st n (g.outputs n) 0 = some l) : l < uintModulus := by
  rw [justified_val ig g st n l h]
  apply foldl_max_lt
  · intro x hx
    rw [List.mem_map] at hx
    obtain ⟨c, _, rfl⟩ := hx
    exact Nat.mod_lt _ (by unfold uintModulus; norm_num)
  · unfold uintModulus; norm_num

theorem justified_consumers (ig : Bool) (g : Dataflow) (st : Levels) (n l : Nat)
    (h : outputLoop ig g st n (g.outputs n) 0 = some l) :
    ∀ c ∈ allConsumers g n, ∃ lc, st c = some lc := by
  intro c hc
  obtain ⟨b, hb, hcb⟩ := (mem_allConsumers g n c).mp hc
  have := outputLoop_some_leveled ig g st n _ 0 l h b hb c hcb
  cases hs : st c with
  | none => rw [hs] at this; exact absurd this (by simp)
  | some lc => exact ⟨lc, rfl⟩

theorem justified_pred (ig : Bool) (g : Dataflow) (st : Levels)
    (hj : ∀ n l, st n = some l →
      n ∈ g.nodes ∧ outputLoop ig g st n (g.outputs n) 0 = some l)
    (n l : Nat) (hn : st n = some l) (hpos : 0 < l) :
    ∃ c ∈ allConsumers g n, st c = some (l - 1) := by
  obtain ⟨_, hout⟩ := hj n l hn
  have hval := justified_val ig g st n l hout
  rcases foldl_max_mem ((allConsumers g n).map
      (fun c => ((st c).getD 0 + 1) % uintModulus)) 0 with h | h
  · rw [← hval] at h; omega
  · rw [← hval, List.mem_map] at h
    obtain ⟨c, hc, hcl⟩ := h
    obtain ⟨lc, hlc⟩ := justified_consumers ig g st n l hout c hc
    have hlt := justified_lt ig g st c lc (hj c lc hlc).2
    refine ⟨c, hc, ?_⟩
    rw [hlc]
    simp only [hlc, Option.getD_some] at hcl
    unfold uintModulus at hcl hlt
    have : lc + 1 = l := by
      by_cases hw : lc + 1 = 4294967296
      · rw [hw] at hcl
        norm_num at hcl
        omega
      · rw [Nat.mod_eq_of_lt (by norm_num at hlt ⊢; omega)] at hcl
        exact hcl
    congr 1
    omega

theorem justified_lower_levels (ig : Bool) (g : Dataflow) (st : Levels)
    (hj : ∀ n l, st n = some l →
      n ∈ g.nodes ∧ outputLoop ig g st n (g.outputs n) 0 = some l) :
    ∀ (l n : Nat), st n = some l → ∀ j, j ≤ l → ∃ m ∈ g.nodes, st m = some j := by
  intro l
  induction l using Nat.strong_induction_on with
  | _ l ih =>
    intro n hn j hj1
    by_cases hjl : j = l
    · subst hjl
      exact ⟨n, (hj n j hn).1, hn⟩
    · have hpos : 0 < l := by omega
      obtain ⟨c, _, hc⟩ := justified_pred ig g st hj n l hn hpos
      exact ih (l - 1) (by omega) c hc j (by omega)

theorem justified_level_lt_length (ig : Bool) (g : Dataflow) (st : Levels)
    (hj : ∀ n l, st n = some l →
      n ∈ g.nodes ∧ outputLoop ig g st n (g.outputs n) 0 = some l)
    (n l : Nat) (hn : st n = some l) : l + 1 ≤ g.nodes.length := by
  have hall := justified_lower_levels ig g st hj l n hn
  have hsub : Finset.range (l + 1) ⊆
      g.nodes.toFinset.image (fun m => (st m).getD 0) := by
    intro j hjr
    rw [Finset.mem_range] at hjr
    obtain ⟨m, hm, hmj⟩ := hall j (by omega)
    rw [Finset.mem_image]
    exact ⟨m, List.mem_toFinset.mpr hm, by simp [hmj]⟩
  calc l + 1 = (Finset.range (l + 1)).card := (Finset.card_range _).symm
    _ ≤ (g.nodes.toFinset.image (fun m => (st m).getD 0)).card := Finset.card_le_card hsub
    _ ≤ g.nodes.toFinset.card := Finset.card_image_le
    _ ≤ g.nodes.length := List.toFinset_card_le _

theorem justified_consumer_below (ig : Bool) (g : Dataflow) (st : Levels)
    (hj : ∀ n l, st n = some l →
      n ∈ g.nodes ∧ outputLoop ig g st n (g.outputs n) 0 = some l)
    (hN : g.nodes.length < 4294967296)
    (n l c lc : Nat) (hn : st n = some l) (hc : c ∈ allConsumers g n)
    (hlc : st c = some lc) : lc + 1 ≤ l := by
  obtain ⟨_, hout⟩ := hj n l hn
  have hval := justified_val ig g st n l hout
  have hlen := justified_level_lt_length ig g st hj c lc hlc
  have hmem : (lc + 1) % uintModulus ∈ (allConsumers g n).map
      (fun c => ((st c).getD 0 + 1) % uintModulus) := by
    rw [List.mem_map]
    exact ⟨c, hc, by simp [hlc]⟩
  have hle := le_foldl_max_of_mem _ 0 _ hmem
  rw [← hval, Nat.mod_eq_of_lt (by unfold uintModulus; omega)] at hle
  exact hle

theorem rounds_reach (ig : Bool) (g : Dataflow) (st0 : Levels) :
    ∀ (k : Nat), Reach ig g st0 ((round ig g)^[k] st0) := by
  intro k
  induction k with
  | zero => exact Reach.refl
  | succ k ih =>
    rw [Function.iterate_succ_apply']
    exact scanNodes_reach ig g st0 g.nodes _ (fun n hn => hn) ih

/-- C19: in every state reached by scheduler rounds from a state where no node has a
level, in a function with fewer than `2 ^ 32` nodes, every consumer `c` of an output
buffer of a leveled node `n` has a level with `level(n) >= level(c) + 1`, and if
`level(n) > 0` some consumer has level `level(n) - 1`. -/
theorem levels_respect_dependencies (ig : Bool) (g : Dataflow) (st0 : Levels) (k : Nat)
    (h0 : ∀ n, st0 n = none) (hN : g.nodes.length < 4294967296) :
    ∀ n l, (round ig g)^[k] st0 n = some l →
      (∀ c ∈ allConsumers g n,
        ∃ lc, (round ig g)^[k] st0 c = some lc ∧ lc + 1 ≤ l) ∧
      (0 < l → ∃ c ∈ allConsumers g n, (round ig g)^[k] st0 c = some (l - 1)) := by
  have hj := justified_of_reach ig g st0 _ h0 (rounds_reach ig g st0 k)
  intro n l hn
  constructor
  · intro c hc
    obtain ⟨lc, hlc⟩ := justified_consumers ig g _ n l (hj n l hn).2 c hc
    exact ⟨lc, hlc, justified_consumer_below ig g _ hj hN n l c lc hn hc hlc⟩
  · intro hpos
    exact justified_pred ig g _ hj n l hn hpos

/-- C19, witness: the diamond graph after two rounds, when node `3` has level `0` and
node `2` has level `1`. -/
theorem levels_respect_dependencies_witness :
    (round true diamond)^[2] emptyState.level 2 = some 1 ∧
      ∀ n l, (round true diamond)^[2] emptyState.level n = some l →
        (∀ c ∈ allConsumers diamond n,
          ∃ lc, (round true diamond)^[2] emptyState.level c = some lc ∧ lc + 1 ≤ l) ∧
        (0 < l → ∃ c ∈ allConsumers diamond n,
          (round true diamond)^[2] emptyState.level c = some (l - 1)) :=
  ⟨by decide,
    levels_respect_dependencies true diamond emptyState.level 2 (fun _ => rfl) (by decide)⟩

/-! ## Levels at the fixpoint are longest-path lengths -/

theorem leveled_of_fixpoint_gen (ig : Bool) (g : Dataflow) (st : Levels)
    (hacyc : Acyclic g) (hclosed : Closed g)
    (hnv : ∀ n ∈ g.nodes, ∀ b ∈ g.outputs n, (!ig && hasViolation g n b) = false)
    (hfix : IsFixpoint ig g st) : ∀ n ∈ g.nodes, (st n).isSome = true := by
  let r : {n // n ∈ g.nodes} → {n // n ∈ g.nodes} → Prop :=
    fun a b => Relation.TransGen (edge g) b.1 a.1
  haveI : IsTrans {n // n ∈ g.nodes} r := ⟨fun a b c hab hbc => Relation.TransGen.trans hbc hab⟩
  haveI : IsIrrefl {n // n ∈ g.nodes} r := ⟨fun a h => hacyc a.1 h⟩
  have hwfr : WellFounded r := Finite.wellFounded_of_trans_of_irrefl r
  have key : ∀ a : {n // n ∈ g.nodes}, (st a.1).isSome = true := by
    intro a
    induction a using hwfr.induction with
    | _ a ih =>
      cases hs : st a.1 with
      | some l => rfl
      | none =>
        exfalso
        have hnone := hfix a.1 a.2
        rw [matchAndRewrite_none_iff ig g st a.1 hs (hnv a.1 a.2)] at hnone
        obtain ⟨b, hb, c, hc, hcn⟩ := hnone
        have hcm : c ∈ g.nodes := hclosed a.1 a.2 b hb c hc
        have := ih ⟨c, hcm⟩ (Relation.TransGen.single ⟨a.2, b, hb, hc⟩)
        simp only at this
        rw [hcn] at this
        exact absurd this (by simp)
  exact fun n hn => key ⟨n, hn⟩

theorem path_le_level (ig : Bool) (g : Dataflow) (st : Levels)
    (hj : ∀ n l, st n = some l →
      n ∈ g.nodes ∧ outputLoop ig g st n (g.outputs n) 0 = some l)
    (hN : g.nodes.length < 4294967296) (n m j : Nat) (hp : Path g n m j) :
    ∀ l, st n = some l → j ≤ l := by
  induction hp with
  | nil n => intro l _; exact Nat.zero_le l
  | cons n c m k he _ ih =>
    intro l hn
    obtain ⟨_, b, hb, hcb⟩ := he
    have hc : c ∈ allConsumers g n := (mem_allConsumers g n c).mpr ⟨b, hb, hcb⟩
    obtain ⟨lc, hlc⟩ := justified_consumers ig g st n l (hj n l hn).2 c hc
    have h1 := justified_consumer_below ig g st hj hN n l c lc hn hc hlc
    have h2 := ih lc hlc
    omega

theorem path_of_level (ig : Bool) (g : Dataflow) (st : Levels)
    (hj : ∀ n l, st n = some l →
      n ∈ g.nodes ∧ outputLoop ig g st n (g.outputs n) 0 = some l)
    (hN : g.nodes.length < 4294967296) :
    ∀ (l n : Nat), st n = some l → ∃ m, Path g n m l ∧ allConsumers g m = [] := by
  intro l
  induction l with
  | zero =>
    intro n hn
    refine ⟨n, Path.nil n, ?_⟩
    cases hc : allConsumers g n with
    | nil => rfl
    | cons c rest =>
      have hmem : c ∈ allConsumers g n := by rw [hc]; exact List.mem_cons_self _ _
      obtain ⟨lc, hlc⟩ := justified_consumers ig g st n 0 (hj n 0 hn).2 c hmem
      have := justified_consumer_below ig g st hj hN n 0 c lc hn hmem hlc
      omega
  | succ l ih =>
    intro n hn
    obtain ⟨c, hc, hcl⟩ := justified_pred ig g st hj n (l + 1) hn (by omega)
    simp only [Nat.add_sub_cancel] at hcl
    obtain ⟨m, hpath, hsink⟩ := ih c hcl
    obtain ⟨b, hb, hcb⟩ := (mem_allConsumers g n c).mp hc
    exact ⟨m, Path.cons n c m l ⟨(hj n _ hn).1, b, hb, hcb⟩ hpath, hsink⟩

/-- C14: for a finite acyclic graph with fewer than `2 ^ 32` nodes, all without a level
at the start, with `ignoreViolations = true` or with at most one producer and one
consumer on every buffer, and with at least `nodeCount` rounds available, every node
holds a level after the pass, and this level is the number of edges of the longest
producer-to-consumer path from the node: a path of that length leads to a node without
consumers, and no path from the node is longer. -/
theorem levels_are_longest_paths (ig : Bool) (g : Dataflow) (s : FuncState) (k : Nat)
    (hacyc : Acyclic g) (hclosed : Closed g) (h0 : ∀ n, s.level n = none)
    (hnv : ig = true ∨ ∀ n ∈ g.nodes, ∀ b ∈ g.outputs n,
      (g.dependentConsumers b n).length ≤ 1 ∧ (g.producers b).length ≤ 1)
    (hN : g.nodes.length < 4294967296) (hk : g.nodes.length ≤ k) :
    ∀ n ∈ g.nodes, ∃ l, (runOnOperation ig g k s).level n = some l ∧
      (∃ m, Path g n m l ∧ allConsumers g m = []) ∧
      ∀ m j, Path g n m j → j ≤ l := by
  have hlev : (runOnOperation ig g k s).level = applyPatternsGreedily ig g k s.level := by
    cases ig <;> simp [runOnOperation]
  rw [hlev]
  have hreach := driver_reach ig g s.level k s.level Reach.refl
  have hfix := driver_isFixpoint ig g k s.level hk
  have hj := justified_of_reach ig g s.level _ h0 hreach
  have hnv1 : ∀ n ∈ g.nodes, ∀ b ∈ g.outputs n, (!ig && hasViolation g n b) = false := by
    intro n hn b hb
    rcases hnv with h | h
    · simp [h]
    · obtain ⟨h1, h2⟩ := h n hn b hb
      have e1 : ¬ 1 < (g.dependentConsumers b n).length := by omega
      have e2 : ¬ 1 < (g.producers b).length := by omega
      simp [hasViolation, e1, e2]
  have hall := leveled_of_fixpoint_gen ig g _ hacyc hclosed hnv1 hfix
  intro n hn
  cases hl : applyPatternsGreedily ig g k s.level n with
  | none =>
    have := hall n hn
    rw [hl] at this
    exact absurd this (by simp)
  | some l =>
    exact ⟨l, rfl, path_of_level ig g _ hj hN l n hl,
      fun m j hp => path_le_level ig g _ hj hN n m j hp l hl⟩

/-- C14, witness: in the diamond graph node `0` gets level `3`, the length of the path
`0 -> 1 -> 2 -> 3`. -/
theorem levels_are_longest_paths_witness :
    (runOnOperation true diamond 4 emptyState).level 0 = some 3 ∧
      ∀ n ∈ diamond.nodes, ∃ l, (runOnOperation true diamond 4 emptyState).level n = some l ∧
        (∃ m, Path diamond n m l ∧ allConsumers diamond m = []) ∧
        ∀ m j, Path diamond n m j → j ≤ l :=
  ⟨by decide,
    levels_are_longest_paths true diamond emptyState 4
      (acyclic_of_rank diamond (fun n => 3 - n) (by decide))
      (by unfold Closed; decide) (fun _ => rfl) (Or.inl rfl) (by decide) (by decide)⟩

end ScaleHLS
